import Mathlib

/-!
Verification of the Ente web client's upload pipeline and metadata model.

This file gives a shallow embedding, in Lean 4, of the parts of the
repository relevant to the frozen claims:

- `web/packages/gallery/services/upload/upload-service.ts`
  (chunked reading, hashing, chunked encryption, multipart upload,
  live-photo pairing, dedup check), and
- `web/packages/media/file-metadata.ts`
  (the three-tier metadata model, magic metadata updates), and
- `web/packages/base/crypto/types.ts` (the stream encryption chunk size).

Bytes are modelled as `Nat`, byte arrays as `List Nat`, and the readable
streams of the source as the lists of chunks they emit.  External
collaborators (libsodium hashing/encryption primitives, the network) are
modelled as parameters or as data-recording constructors, as noted at each
definition.
-/

namespace Ente

/-- `streamEncryptionChunkSize` from `web/packages/base/crypto/types.ts`:
the fixed 4 MiB grain used for chunked stream encryption. -/
def streamEncryptionChunkSize : Nat := 4 * 1024 * 1024

/-- `multipartChunksPerPart` from `upload-service.ts`: how many encryption
chunks go into a single multipart upload part. -/
def multipartChunksPerPart : Nat := 5

/-! ## The chunking transformer of `readUploadItem`

`readUploadItem` pipes the underlying stream through a `TransformStream`
that coalesces arbitrarily-sized reads into `streamEncryptionChunkSize`-d
chunks.  We model the transformer generically over the grain `N`.
-/

/-- The `while (next.length >= N)` loop of the transformer in
`readUploadItem`: repeatedly emit `next.slice(0, N)` and continue with
`next.slice(N)`.  Returns the emitted full chunks and the remainder. -/
def emitFull (N : Nat) (l : List α) : List (List α) × List α :=
  if _h : 0 < N ∧ N ≤ l.length then
    let step := emitFull N (l.drop N)
    (l.take N :: step.1, step.2)
  else
    ([], l)
termination_by l.length
decreasing_by
  simp only [List.length_drop]
  omega

/-- The `transform` callback of `readUploadItem`'s `TransformStream`,
iterated over all the chunks of the underlying stream.  `pending` is the
buffered remainder (the JS code's `pending`, with `[]` standing for
`undefined`).  Returns the emitted chunks and the final pending buffer. -/
def transformChunks (N : Nat) (pending : List α) : List (List α) → List (List α) × List α
  | [] => ([], pending)
  | c :: cs =>
    let step := emitFull N (pending ++ c)
    let rest := transformChunks N step.2 cs
    (step.1 ++ rest.1, rest.2)

/-- The full chunked stream produced by `readUploadItem`'s transformer:
process every underlying chunk, then `flush` enqueues the pending
remainder when it is non-empty. -/
def chunkedStream (N : Nat) (underlying : List (List α)) : List (List α) :=
  let p := transformChunks N [] underlying
  if p.2.isEmpty then p.1 else p.1 ++ [p.2]

/-- Direct chunking of a byte list into `N`-sized pieces (last one
possibly shorter).  This is the specification-style description of what
the streaming transformer computes. -/
def chunksExact (N : Nat) (l : List α) : List (List α) :=
  if _h : l.length = 0 ∨ N = 0 then []
  else l.take N :: chunksExact N (l.drop N)
termination_by l.length
decreasing_by
  simp only [List.length_drop]
  omega

theorem chunksExact_nil (N : Nat) : chunksExact N ([] : List α) = [] := by
  rw [chunksExact]
  simp

theorem chunksExact_ne_nil (N : Nat) (l : List α) (hl : l ≠ []) (hN : N ≠ 0) :
    chunksExact N l = l.take N :: chunksExact N (l.drop N) := by
  rw [chunksExact]
  simp [List.length_eq_zero.ne.mpr hl, hN]

theorem emitFull_of_lt (N : Nat) (l : List α) (h : l.length < N) :
    emitFull N l = ([], l) := by
  rw [emitFull]
  rw [dif_neg]
  omega

theorem emitFull_of_le (N : Nat) (l : List α) (h0 : 0 < N) (h : N ≤ l.length) :
    emitFull N l = ((l.take N) :: (emitFull N (l.drop N)).1, (emitFull N (l.drop N)).2) := by
  rw [emitFull]
  simp [h0, h]

theorem transformChunks_nil (N : Nat) (pending : List α) :
    transformChunks N pending [] = ([], pending) := rfl

theorem transformChunks_cons (N : Nat) (pending c : List α) (cs : List (List α)) :
    transformChunks N pending (c :: cs) =
      ((emitFull N (pending ++ c)).1 ++ (transformChunks N (emitFull N (pending ++ c)).2 cs).1,
       (transformChunks N (emitFull N (pending ++ c)).2 cs).2) := rfl

/-- Structural facts about `emitFull`: it splits its input into full
`N`-chunks plus a short remainder. -/
theorem emitFull_spec (N : Nat) (h0 : 0 < N) :
    ∀ (n : Nat) (l : List α), l.length ≤ n →
    (emitFull N l).1.flatten ++ (emitFull N l).2 = l ∧
    (∀ c ∈ (emitFull N l).1, c.length = N) ∧
    (emitFull N l).2.length < N := by
  intro n
  induction n with
  | zero =>
    intro l hl
    rw [emitFull_of_lt N l (by omega)]
    exact ⟨rfl, by simp, by show l.length < N; omega⟩
  | succ n ih =>
    intro l hl
    by_cases h : N ≤ l.length
    · rw [emitFull_of_le N l h0 h]
      have hdrop : (l.drop N).length ≤ n := by
        simp only [List.length_drop]; omega
      obtain ⟨ih1, ih2, ih3⟩ := ih (l.drop N) hdrop
      refine ⟨?_, ?_, ih3⟩
      · simp only [List.flatten_cons, List.append_assoc, ih1]
        exact List.take_append_drop N l
      · intro c hc
        rcases List.mem_cons.mp hc with rfl | hc
        · simp [List.length_take]; omega
        · exact ih2 c hc
    · rw [emitFull_of_lt N l (by omega)]
      exact ⟨rfl, by simp, by show l.length < N; omega⟩

/-- Structural facts about the iterated transformer. -/
theorem transformChunks_spec (N : Nat) (h0 : 0 < N) (cs : List (List α)) :
    ∀ pending : List α, pending.length < N →
    (transformChunks N pending cs).1.flatten ++ (transformChunks N pending cs).2
      = pending ++ cs.flatten ∧
    (∀ c ∈ (transformChunks N pending cs).1, c.length = N) ∧
    (transformChunks N pending cs).2.length < N := by
  induction cs with
  | nil =>
    intro pending hp
    exact ⟨by simp [transformChunks_nil], by simp [transformChunks_nil],
      by simpa [transformChunks_nil]⟩
  | cons c cs ih =>
    intro pending hp
    obtain ⟨e1, e2, e3⟩ := emitFull_spec N h0 (pending ++ c).length (pending ++ c) le_rfl
    obtain ⟨t1, t2, t3⟩ := ih (emitFull N (pending ++ c)).2 e3
    rw [transformChunks_cons]
    refine ⟨?_, ?_, t3⟩
    · simp only [List.flatten_append, List.append_assoc, t1, List.flatten_cons]
      rw [← List.append_assoc, e1, List.append_assoc]
    · intro d hd
      rcases List.mem_append.mp hd with hd | hd
      · exact e2 d hd
      · exact t2 d hd

/-- A list shorter than the grain is a single chunk (or none when empty). -/
theorem chunksExact_short (N : Nat) (h0 : 0 < N) (r : List α) (hr : r.length < N) :
    chunksExact N r = if r.isEmpty then [] else [r] := by
  rcases eq_or_ne r ([] : List α) with rfl | hne
  · simp [chunksExact_nil]
  · rw [chunksExact_ne_nil N r hne (by omega)]
    rw [List.take_of_length_le (by omega), List.drop_eq_nil_of_le (by omega), chunksExact_nil]
    simp [List.isEmpty_iff, hne]

/-- If a list decomposes into full `N`-chunks followed by a short
remainder, then `chunksExact` recovers exactly those chunks followed by
the chunking of the remainder. -/
theorem chunksExact_of_decomp (N : Nat) (h0 : 0 < N) (out : List (List α)) :
    ∀ r : List α, (∀ c ∈ out, c.length = N) → r.length < N →
    chunksExact N (out.flatten ++ r) = out ++ chunksExact N r := by
  induction out with
  | nil => intro r _ _; simp
  | cons c out ih =>
    intro r hall hr
    have hc : c.length = N := hall c (List.mem_cons_self c out)
    have hcne : (c ++ (out.flatten ++ r)) ≠ [] := by
      intro h
      have := congrArg List.length h
      simp [hc] at this
      omega
    simp only [List.flatten_cons, List.append_assoc]
    rw [chunksExact_ne_nil N _ hcne (by omega)]
    rw [← hc, List.take_left, List.drop_left, hc]
    rw [ih r (fun d hd => hall d (List.mem_cons_of_mem c hd)) hr]
    rfl

/-- The streaming transformer of `readUploadItem` computes exactly the
direct chunking of the concatenated input. -/
theorem chunkedStream_eq_chunksExact (N : Nat) (h0 : 0 < N) (underlying : List (List α)) :
    chunkedStream N underlying = chunksExact N underlying.flatten := by
  obtain ⟨t1, t2, t3⟩ := transformChunks_spec N h0 underlying [] (by simpa using h0)
  simp only [List.nil_append] at t1
  rw [← t1, chunksExact_of_decomp N h0 _ _ t2 t3]
  rw [chunksExact_short N h0 _ t3]
  unfold chunkedStream
  rcases h : (transformChunks N [] underlying).2.isEmpty with _ | _ <;> simp [h]

/-! Counting and size lemmas for `chunksExact`. -/

theorem chunksExact_length (N : Nat) (h0 : 0 < N) :
    ∀ (n : Nat) (l : List α), l.length ≤ n →
    (chunksExact N l).length = (l.length + N - 1) / N := by
  intro n
  induction n with
  | zero =>
    intro l hl
    have : l = [] := List.length_eq_zero.mp (by omega)
    subst this
    rw [chunksExact_nil]
    simp only [List.length_nil]
    rw [show 0 + N - 1 = N - 1 from by omega, Nat.div_eq_of_lt (by omega)]
  | succ n ih =>
    intro l hl
    rcases eq_or_ne l ([] : List α) with rfl | hne
    · rw [chunksExact_nil]
      simp only [List.length_nil]
      rw [show 0 + N - 1 = N - 1 from by omega, Nat.div_eq_of_lt (by omega)]
    · rw [chunksExact_ne_nil N l hne (by omega)]
      have hpos : 0 < l.length := List.length_pos.mpr hne
      have hdrop : (l.drop N).length ≤ n := by
        simp only [List.length_drop]; omega
      rw [List.length_cons, ih (l.drop N) hdrop]
      simp only [List.length_drop]
      rcases le_or_lt l.length N with hle | hlt
      · have h1 : l.length - N = 0 := by omega
        rw [h1]
        have h2 : (0 + N - 1) / N = 0 := Nat.div_eq_of_lt (by omega)
        rw [h2]
        have h3 : l.length + N - 1 = (l.length - 1) + N := by omega
        rw [h3, Nat.add_div_right _ h0, Nat.div_eq_of_lt (by omega)]
      · have h1 : l.length - N + N - 1 = (l.length - N - 1) + N := by omega
        have h2 : l.length + N - 1 = ((l.length - N - 1) + N) + N := by omega
        rw [h1, h2]
        rw [Nat.add_div_right _ h0, Nat.add_div_right _ h0, Nat.add_div_right _ h0]

theorem chunksExact_full_sizes (N : Nat) (h0 : 0 < N) :
    ∀ (n : Nat) (l : List α), l.length ≤ n →
    ∀ c ∈ (chunksExact N l).dropLast, c.length = N := by
  intro n
  induction n with
  | zero =>
    intro l hl
    have : l = [] := List.length_eq_zero.mp (by omega)
    subst this
    simp [chunksExact_nil]
  | succ n ih =>
    intro l hl
    rcases eq_or_ne l ([] : List α) with rfl | hne
    · simp [chunksExact_nil]
    · rw [chunksExact_ne_nil N l hne (by omega)]
      rcases eq_or_ne (chunksExact N (l.drop N)) ([] : List (List α)) with hd | hd
      · simp [hd]
      · rw [List.dropLast_cons_of_ne_nil hd]
        intro c hc
        rcases List.mem_cons.mp hc with rfl | hc
        · have hlen : N ≤ l.length := by
            by_contra hlt
            have hnil : l.drop N = [] := List.drop_eq_nil_of_le (by omega)
            rw [hnil, chunksExact_nil] at hd
            exact hd rfl
          simp [List.length_take]
          omega
        · have hpos : 0 < l.length := List.length_pos.mpr hne
          have hdrop : (l.drop N).length ≤ n := by
            simp only [List.length_drop]; omega
          exact ih (l.drop N) hdrop c hc

theorem chunksExact_last_size (N : Nat) (h0 : 0 < N) :
    ∀ (n : Nat) (l : List α), l.length ≤ n → l ≠ [] →
    ∀ c, (chunksExact N l).getLast? = some c →
      c.length = (if l.length % N = 0 then N else l.length % N) := by
  intro n
  induction n with
  | zero =>
    intro l hl hne
    exact absurd (List.length_eq_zero.mp (by omega)) hne
  | succ n ih =>
    intro l hl hne c hc
    rw [chunksExact_ne_nil N l hne (by omega)] at hc
    have hpos : 0 < l.length := List.length_pos.mpr hne
    rcases le_or_lt l.length N with hle | hlt
    · have hdropnil : l.drop N = [] := List.drop_eq_nil_of_le hle
      rw [hdropnil, chunksExact_nil] at hc
      simp only [List.getLast?_singleton, Option.some.injEq] at hc
      subst hc
      rw [List.take_of_length_le hle]
      rcases eq_or_ne l.length N with he | hne'
      · simp [he]
      · have hm : l.length % N = l.length := Nat.mod_eq_of_lt (by omega)
        simp only [hm]
        rw [if_neg (by omega)]
    · have hdropne : l.drop N ≠ [] := by
        intro h
        have := congrArg List.length h
        simp at this
        omega
      have hchne : chunksExact N (l.drop N) ≠ [] := by
        rw [chunksExact_ne_nil N _ hdropne (by omega)]
        simp
      rcases hck : chunksExact N (l.drop N) with _ | ⟨b, bs⟩
      · exact absurd hck hchne
      rw [hck, List.getLast?_cons_cons] at hc
      have hdrop : (l.drop N).length ≤ n := by
        simp only [List.length_drop]; omega
      have hrec := ih (l.drop N) hdrop hdropne c (by rw [hck]; exact hc)
      rw [hrec]
      simp only [List.length_drop]
      have hmod : (l.length - N) % N = l.length % N := by
        conv_rhs => rw [show l.length = (l.length - N) + N by omega]
        rw [Nat.add_mod_right]
      rw [hmod]

/-! ## `readUploadItem` -/

/-- The in-memory representation of an upload item produced by
`readUploadItem` (the `FileStream` interface of `upload-service.ts`):
a stream of chunks, the number of chunks the stream will emit, the byte
size of the underlying file, and its modification time. -/
structure FileStream where
  stream : List (List Nat)
  chunkCount : Nat
  fileSize : Nat
  lastModifiedMs : Nat
deriving Repr, DecidableEq

/-- `readUploadItem` from `upload-service.ts`.  The underlying source
(web `File`, desktop path, or zip entry) is modelled by the list of
arbitrarily-sized chunks its readable stream emits, together with the
`fileSize` and `lastModifiedMs` facts obtained alongside it.  The chunk
count is `Math.ceil(fileSize / streamEncryptionChunkSize)` and the stream
is piped through the coalescing transformer. -/
def readUploadItem (underlying : List (List Nat)) (fileSize lastModifiedMs : Nat) : FileStream :=
  { stream := chunkedStream streamEncryptionChunkSize underlying
    chunkCount := (fileSize + streamEncryptionChunkSize - 1) / streamEncryptionChunkSize
    fileSize := fileSize
    lastModifiedMs := lastModifiedMs }

theorem streamEncryptionChunkSize_pos : 0 < streamEncryptionChunkSize := by
  rw [streamEncryptionChunkSize]
  omega

/-- C1: for an upload item whose underlying byte size is `S`,
`readUploadItem` returns `chunkCount = ceil(S / 4194304)` and the stream
it returns emits exactly that many chunks, each of exactly `4194304`
bytes except the last, whose length is `S mod 4194304` when that is
non-zero and a full `4194304` bytes when `S` is a non-zero exact
multiple; a size-0 source yields 0 chunks. -/
theorem readUploadItem_chunking
    (underlying : List (List Nat)) (S lastModifiedMs : Nat)
    (hS : underlying.flatten.length = S) :
    (readUploadItem underlying S lastModifiedMs).chunkCount
        = (S + streamEncryptionChunkSize - 1) / streamEncryptionChunkSize ∧
    (readUploadItem underlying S lastModifiedMs).stream.length
        = (readUploadItem underlying S lastModifiedMs).chunkCount ∧
    (∀ c ∈ (readUploadItem underlying S lastModifiedMs).stream.dropLast,
        c.length = streamEncryptionChunkSize) ∧
    (∀ c, (readUploadItem underlying S lastModifiedMs).stream.getLast? = some c →
        c.length = if S % streamEncryptionChunkSize = 0 then streamEncryptionChunkSize
          else S % streamEncryptionChunkSize) ∧
    (S = 0 → (readUploadItem underlying S lastModifiedMs).stream = []) := by
  have h0 := streamEncryptionChunkSize_pos
  have hstream : (readUploadItem underlying S lastModifiedMs).stream
      = chunksExact streamEncryptionChunkSize underlying.flatten :=
    chunkedStream_eq_chunksExact streamEncryptionChunkSize h0 underlying
  refine ⟨rfl, ?_, ?_, ?_, ?_⟩
  · rw [hstream]
    show _ = (S + streamEncryptionChunkSize - 1) / streamEncryptionChunkSize
    rw [chunksExact_length streamEncryptionChunkSize h0 underlying.flatten.length
      underlying.flatten le_rfl, hS]
  · rw [hstream]
    exact chunksExact_full_sizes streamEncryptionChunkSize h0 underlying.flatten.length
      underlying.flatten le_rfl
  · rw [hstream]
    intro c hc
    rcases eq_or_ne underlying.flatten ([] : List Nat) with hnil | hne
    · rw [hnil, chunksExact_nil] at hc
      simp at hc
    · rw [← hS]
      exact chunksExact_last_size streamEncryptionChunkSize h0 underlying.flatten.length
        underlying.flatten le_rfl hne c hc
  · intro hS0
    rw [hstream]
    have : underlying.flatten = [] := List.length_eq_zero.mp (by omega)
    rw [this, chunksExact_nil]

/-- Witness for C1 at the concrete source `[[1, 2, 3]]` of size 3. -/
theorem readUploadItem_chunking_witness :
    ([[1, 2, 3]] : List (List Nat)).flatten.length = 3 ∧
    ((readUploadItem [[1, 2, 3]] 3 0).chunkCount
        = (3 + streamEncryptionChunkSize - 1) / streamEncryptionChunkSize ∧
      (readUploadItem [[1, 2, 3]] 3 0).stream.length
        = (readUploadItem [[1, 2, 3]] 3 0).chunkCount ∧
      (∀ c ∈ (readUploadItem [[1, 2, 3]] 3 0).stream.dropLast,
        c.length = streamEncryptionChunkSize) ∧
      (∀ c, (readUploadItem [[1, 2, 3]] 3 0).stream.getLast? = some c →
        c.length = if 3 % streamEncryptionChunkSize = 0 then streamEncryptionChunkSize
          else 3 % streamEncryptionChunkSize) ∧
      (3 = 0 → (readUploadItem [[1, 2, 3]] 3 0).stream = [])) :=
  ⟨by decide, readUploadItem_chunking [[1, 2, 3]] 3 0 (by decide)⟩

/-! ## JSON objects

The magic metadata tiers are plain JSON objects.  We model a JSON value
by the cases the metadata code distinguishes (`null`, `undefined`, and
non-nullish payloads) and an object as an association list in insertion
order, exactly as JavaScript object spreads and `Object.entries` see it.
-/

/-- A JSON(-ish) value as handled by the metadata code. -/
inductive JValue
  | vNull
  | vUndefined
  | vNum (n : Int)
  | vStr (s : String)
  | vBool (b : Bool)
deriving DecidableEq, Repr

/-- `v === null || v === undefined`. -/
def JValue.isNullish : JValue → Bool
  | .vNull => true
  | .vUndefined => true
  | _ => false

/-- `typeof v == "number"` (the check Zod's `z.number()` performs). -/
def JValue.isNum : JValue → Bool
  | .vNum _ => true
  | _ => false

/-- A JavaScript object: keys in insertion order. -/
abbrev JObj := List (String × JValue)

/-- The keys of an object, in order. -/
def objKeys (o : JObj) : List String := o.map Prod.fst

/-- `k in o`. -/
def hasKey (o : JObj) (k : String) : Bool := o.any (fun p => decide (p.1 = k))

/-- `o[k] = v`: replace the value at an existing key in place, otherwise
append the key at the end (JavaScript property-assignment order). -/
def setKey (o : JObj) (k : String) (v : JValue) : JObj :=
  if hasKey o k then o.map (fun p => if p.1 = k then (k, v) else p)
  else o ++ [(k, v)]

/-- The object spread `{...a, ...b}`: start from `a` and assign every
entry of `b` in order, so `b` wins on key collisions. -/
def spreadMerge (a b : JObj) : JObj := b.foldl (fun acc p => setKey acc p.1 p.2) a

/-- `Object.fromEntries`: build an object by assigning the entries in
order (later duplicate keys win, first occurrence fixes the position). -/
def fromEntries (entries : JObj) : JObj :=
  entries.foldl (fun acc p => setKey acc p.1 p.2) []

/-- The filter of the non-nullish entries of an object:
`Object.entries(o).filter(([, v]) => v !== null && v !== undefined)`. -/
def nonNullishEntries (o : JObj) : JObj := o.filter (fun p => !(p.2.isNullish))

/-- `withoutNullAndUndefinedValues` from `file-metadata.ts`:
`Object.fromEntries(Object.entries(o).filter(([, v]) => v !== null && v !== undefined))`. -/
def withoutNullAndUndefinedValues (o : JObj) : JObj :=
  fromEntries (nonNullishEntries o)

theorem hasKey_iff (o : JObj) (k : String) : hasKey o k = true ↔ k ∈ objKeys o := by
  simp [hasKey, objKeys, List.any_eq_true]

theorem objKeys_setKey_mem (o : JObj) (k : String) (v : JValue) (h : hasKey o k = true) :
    objKeys (setKey o k v) = objKeys o := by
  simp only [setKey, if_pos h, objKeys, List.map_map]
  apply List.map_congr_left
  intro p _
  by_cases hp : p.1 = k
  · simp [hp]
  · simp [hp]

theorem objKeys_setKey_not_mem (o : JObj) (k : String) (v : JValue) (h : hasKey o k = false) :
    objKeys (setKey o k v) = objKeys o ++ [k] := by
  simp [setKey, h, objKeys]

theorem setKey_of_not_hasKey (o : JObj) (k : String) (v : JValue) (h : hasKey o k = false) :
    setKey o k v = o ++ [(k, v)] := by
  simp [setKey, h]

theorem objKeys_setKey_nodup (o : JObj) (k : String) (v : JValue)
    (h : (objKeys o).Nodup) : (objKeys (setKey o k v)).Nodup := by
  rcases hk : hasKey o k with _ | _
  · rw [objKeys_setKey_not_mem o k v hk]
    rw [List.nodup_append]
    refine ⟨h, List.nodup_singleton k, ?_⟩
    intro a ha hb
    simp at hb
    subst hb
    rw [(hasKey_iff o a).mpr ha] at hk
    simp at hk
  · rw [objKeys_setKey_mem o k v hk]; exact h

theorem objKeys_spreadMerge_nodup (b : JObj) :
    ∀ a : JObj, (objKeys a).Nodup → (objKeys (spreadMerge a b)).Nodup := by
  induction b with
  | nil => intro a ha; exact ha
  | cons p b ih =>
    intro a ha
    exact ih (setKey a p.1 p.2) (objKeys_setKey_nodup a p.1 p.2 ha)

theorem fromEntries_go_eq (o : JObj) :
    ∀ acc : JObj, (objKeys (acc ++ o)).Nodup →
      o.foldl (fun acc p => setKey acc p.1 p.2) acc = acc ++ o := by
  induction o with
  | nil => intro acc _; simp
  | cons p o ih =>
    intro acc hn
    have hsplit : (objKeys acc ++ objKeys ((p :: o) : JObj)).Nodup := by
      simpa [objKeys] using hn
    rw [List.nodup_append] at hsplit
    have hk : hasKey acc p.1 = false := by
      rcases h : hasKey acc p.1 with _ | _
      · rfl
      · exact absurd (hsplit.2.2 ((hasKey_iff acc p.1).mp h) (by simp [objKeys])) id
    show (o.foldl (fun acc p => setKey acc p.1 p.2) (setKey acc p.1 p.2)) = acc ++ p :: o
    rw [setKey_of_not_hasKey acc p.1 p.2 hk]
    have hassoc : acc ++ p :: o = (acc ++ [(p.1, p.2)]) ++ o := by simp
    rw [hassoc]
    exact ih (acc ++ [(p.1, p.2)]) (by rw [← hassoc]; exact hn)

/-- `Object.fromEntries` is the identity on duplicate-free entry lists. -/
theorem fromEntries_eq_self (o : JObj) (h : (objKeys o).Nodup) : fromEntries o = o := by
  have := fromEntries_go_eq o [] (by simpa using h)
  simpa [fromEntries] using this

theorem nonNullishEntries_nodup (o : JObj) (h : (objKeys o).Nodup) :
    (objKeys (nonNullishEntries o)).Nodup := by
  apply List.Nodup.sublist _ h
  exact List.Sublist.map Prod.fst (List.filter_sublist o)

theorem mem_nonNullishEntries (o : JObj) (p : String × JValue)
    (hp : p ∈ nonNullishEntries o) : p.2.isNullish = false := by
  have := List.of_mem_filter hp
  revert this
  rcases p.2.isNullish with _ | _ <;> simp

/-- On a duplicate-free object, `withoutNullAndUndefinedValues` is the
plain filter of the non-nullish entries. -/
theorem withoutNullAndUndefinedValues_eq (o : JObj) (h : (objKeys o).Nodup) :
    withoutNullAndUndefinedValues o = nonNullishEntries o :=
  fromEntries_eq_self _ (nonNullishEntries_nodup o h)

/-- Property lookup `o[k]`: the value at the (first) entry with key `k`.
(Real JavaScript objects have unique keys, so "first" is immaterial.) -/
def jlookup (o : JObj) (k : String) : Option JValue :=
  match o with
  | [] => none
  | p :: ps => if p.1 = k then some p.2 else jlookup ps k

theorem jlookup_append (a b : JObj) (k : String) :
    jlookup (a ++ b) k = (jlookup a k).or (jlookup b k) := by
  induction a with
  | nil => simp [jlookup]
  | cons p a ih =>
    by_cases hp : p.1 = k <;> simp [jlookup, hp, ih]

theorem jlookup_eq_none_of_not_mem (o : JObj) (k : String) (h : k ∉ objKeys o) :
    jlookup o k = none := by
  induction o with
  | nil => rfl
  | cons p o ih =>
    have h1 : ¬ (p.1 = k) := by
      intro he
      exact h (by simp [objKeys, he])
    have h2 : k ∉ objKeys o := by
      intro hm
      simp only [objKeys, List.map_cons, List.mem_cons] at h ⊢
      exact h (Or.inr hm)
    simp only [jlookup, if_neg h1]
    exact ih h2

theorem jlookup_map_replace (o : JObj) (k k' : String) (v : JValue) (hne : k' ≠ k) :
    jlookup (o.map (fun p => if p.1 = k then (k, v) else p)) k' = jlookup o k' := by
  induction o with
  | nil => rfl
  | cons q o ih =>
    have hkk' : ¬ (k = k') := fun h => hne h.symm
    by_cases hq : q.1 = k
    · simp only [List.map_cons, if_pos hq, jlookup]
      rw [if_neg hkk', if_neg (by rw [hq]; exact hkk')]
      exact ih
    · simp only [List.map_cons, if_neg hq, jlookup]
      by_cases hq' : q.1 = k' <;> simp [hq', ih]

theorem jlookup_setKey_self (o : JObj) (k : String) (v : JValue) :
    jlookup (setKey o k v) k = some v := by
  rcases hk : hasKey o k with _ | _
  · rw [setKey_of_not_hasKey o k v hk]
    rw [jlookup_append]
    rw [jlookup_eq_none_of_not_mem o k (fun hmem => by
      rw [(hasKey_iff o k).mpr hmem] at hk
      simp at hk)]
    simp [jlookup]
  · simp only [setKey, if_pos hk]
    induction o with
    | nil => simp [hasKey] at hk
    | cons q o ih =>
      by_cases hq : q.1 = k
      · simp [jlookup, hq]
      · simp only [List.map_cons, if_neg hq, jlookup, if_neg hq]
        apply ih
        simp only [hasKey, List.any_cons, Bool.or_eq_true] at hk ⊢
        rcases hk with hk | hk
        · exact absurd (by simpa using hk) hq
        · simpa using hk

theorem jlookup_setKey_ne (o : JObj) (k k' : String) (v : JValue) (hne : k' ≠ k) :
    jlookup (setKey o k v) k' = jlookup o k' := by
  rcases hk : hasKey o k with _ | _
  · rw [setKey_of_not_hasKey o k v hk, jlookup_append]
    have h1 : jlookup [(k, v)] k' = none := by
      have hkk : ¬ (k = k') := fun h => hne h.symm
      simp [jlookup, hkk]
    rw [h1]
    rcases jlookup o k' with _ | _ <;> simp
  · simp only [setKey, if_pos hk]
    exact jlookup_map_replace o k k' v hne

/-- The spread `{...a, ...b}` behaves as "b wins on collision": looking
up a key finds `b`'s value when present, else `a`'s.  (For `b` with
duplicate keys JavaScript would keep the last occurrence; metadata
objects are duplicate-free, which the `Nodup` hypothesis expresses.) -/
theorem jlookup_spreadMerge (b : JObj) (hb : (objKeys b).Nodup) (k : String) :
    ∀ a : JObj, jlookup (spreadMerge a b) k = (jlookup b k).or (jlookup a k) := by
  induction b with
  | nil => intro a; simp [spreadMerge, jlookup]
  | cons p b ih =>
    intro a
    have hb' : (objKeys b).Nodup := by
      simp only [objKeys, List.map_cons, List.nodup_cons] at hb
      exact hb.2
    have hp1 : p.1 ∉ objKeys b := by
      simp only [objKeys, List.map_cons, List.nodup_cons] at hb
      exact hb.1
    show jlookup (spreadMerge (setKey a p.1 p.2) b) k = _
    rw [ih hb' (setKey a p.1 p.2)]
    by_cases hk : k = p.1
    · rw [hk]
      rw [jlookup_eq_none_of_not_mem b p.1 hp1, jlookup_setKey_self]
      simp [jlookup]
    · rw [jlookup_setKey_ne a p.1 k p.2 hk]
      have hpk : ¬ (p.1 = k) := fun h => hk h.symm
      simp only [jlookup]
      rw [if_neg hpk]

/-! ## Magic metadata: envelopes, files, and interactive updates

Model of the three-tier metadata machinery of `file-metadata.ts`.  The
`data` field of an envelope is either the still-encrypted remote payload
(a base64 string in the source; modelled by the JSON object it decrypts
to, since `encryptMetadataJSON`/`decryptMetadataJSON` are an external,
lossless collaborator pair) or the decrypted, cached JSON object.
-/

/-- The `data` field of a magic metadata envelope. -/
inductive MMData
  | enc (plaintext : JObj)
  | dec (o : JObj)
deriving DecidableEq, Repr

/-- A magic metadata envelope as stored on an `EnteFile`
(`version`, `count`, `data`, `header`). -/
structure MagicMetadata where
  version : Int
  count : Nat
  data : MMData
  header : String
deriving DecidableEq, Repr

/-- The parts of an `EnteFile` that the metadata update path touches. -/
structure EnteFile where
  id : Nat
  key : String
  magicMetadata : Option MagicMetadata
  pubMagicMetadata : Option MagicMetadata
deriving DecidableEq, Repr

/-- `encryptMetadataJSON` from `ente-base/crypto`: an external
collaborator.  Encryption is modelled losslessly: the "ciphertext" is
the plaintext object itself and the random decryption header is a fixed
token (none of the claims depend on its value). -/
def encryptMetadataJSON (jsonValue : JObj) (_key : String) : JObj × String :=
  (jsonValue, "header")

/-- The Zod `PublicMagicMetadata` schema of `file-metadata.ts`: a
`looseObject` that passes every field through unchanged, checking only
that `editedTime`, when present, is a number. -/
def parsePublicMagicMetadata (o : JObj) : Except String JObj :=
  if o.all (fun p => p.1 != "editedTime" || p.2.isNum) then .ok o
  else .error "PublicMagicMetadata parse failed"

/-- `filePrivateMagicMetadata` from `file-metadata.ts`: return the
decrypted private magic metadata, `none` when the file has none, and
throw when the envelope has not been decrypted yet. -/
def filePrivateMagicMetadata (f : EnteFile) : Except String (Option JObj) :=
  match f.magicMetadata with
  | none => .ok none
  | some env =>
    match env.data with
    | .enc _ => .error "Private magic metadata had not been decrypted"
    | .dec o => .ok (some o)

/-- `decryptPublicMagicMetadata` from `file-metadata.ts`: decrypt (when
still a string), drop nullish-valued keys, parse with the loose Zod
schema, and cache the parsed result back onto the envelope.  Returns the
parsed object together with the (possibly) updated file. -/
def decryptPublicMagicMetadata (f : EnteFile) : Except String (Option JObj × EnteFile) :=
  match f.pubMagicMetadata with
  | none => .ok (none, f)
  | some env =>
    let jsonValue := match env.data with
      | .enc p => p
      | .dec o => o
    match parsePublicMagicMetadata (withoutNullAndUndefinedValues jsonValue) with
    | .error e => .error e
    | .ok result =>
      .ok (some result, { f with pubMagicMetadata := some { env with data := .dec result } })

/-- The per-file payload of an update request
(`{version, count, data, header}`); `data` is the encrypted merged
object, modelled by its plaintext. -/
structure RemoteMagicMetadata where
  version : Int
  count : Nat
  data : JObj
  header : String
deriving DecidableEq, Repr

/-- `UpdateMagicMetadataRequest` from `file-metadata.ts`: the list of
(file id, new magic metadata) pairs to update. -/
structure UpdateMagicMetadataRequest where
  metadataList : List (Nat × RemoteMagicMetadata)
deriving DecidableEq, Repr

/-- `updateMagicMetadataRequest` from `file-metadata.ts`: drop all null
or undefined values to obtain the syncable entries, encrypt the
surviving object, and build the envelope carrying the given (pre-update)
version and the surviving entry count. -/
def updateMagicMetadataRequest (f : EnteFile) (metadata : JObj) (metadataVersion : Int) :
    UpdateMagicMetadataRequest :=
  let validEntries := metadata.filter (fun p => !(p.2.isNullish))
  let e := encryptMetadataJSON (fromEntries validEntries) f.key
  { metadataList := [(f.id,
      { version := metadataVersion
        count := validEntries.length
        data := e.1
        header := e.2 })] }

/-- `updateRequest.metadataList[0]!.magicMetadata` (the list is always a
singleton; the fallback mirrors the runtime crash `[0]!` would be). -/
def requestEnvelope (r : UpdateMagicMetadataRequest) : RemoteMagicMetadata :=
  match r.metadataList with
  | e :: _ => e.2
  | [] => { version := 0, count := 0, data := [], header := "" }

/-- `updateRemotePrivateMagicMetadata` from `file-metadata.ts`.  The
network `PUT` is an elided external effect (the request it would carry is
returned alongside the synthesized in-memory envelope). -/
def updateRemotePrivateMagicMetadata (f : EnteFile) (metadataUpdates : JObj) :
    Except String (UpdateMagicMetadataRequest × MagicMetadata) := do
  let existingMetadata ← filePrivateMagicMetadata f
  let updatedMetadata := spreadMerge (existingMetadata.getD []) metadataUpdates
  let metadataVersion := (f.magicMetadata.map MagicMetadata.version).getD 1
  let updateRequest := updateMagicMetadataRequest f updatedMetadata metadataVersion
  let updatedEnvelope := requestEnvelope updateRequest
  -- `putFilesPrivateMagicMetadata` elided: remote accepts the write.
  -- The returned envelope starts from the one just sent, with the
  -- version temporarily bumped and the data set to the updated contents.
  return (updateRequest,
    { version := metadataVersion + 1
      count := updatedEnvelope.count
      data := .dec updatedMetadata
      header := updatedEnvelope.header })

/-- `updateRemotePublicMagicMetadata` from `file-metadata.ts`.  The
network `PUT` and the final `mergeMetadata1` display-refresh are elided
external effects; the function mutates the file in place, which is
modelled by returning the updated file. -/
def updateRemotePublicMagicMetadata (f : EnteFile) (metadataUpdates : JObj) :
    Except String (UpdateMagicMetadataRequest × EnteFile) := do
  let (existingMetadata, f1) ← decryptPublicMagicMetadata f
  let updatedMetadata := spreadMerge (existingMetadata.getD []) metadataUpdates
  let metadataVersion := (f1.pubMagicMetadata.map MagicMetadata.version).getD 1
  let updateRequest := updateMagicMetadataRequest f1 updatedMetadata metadataVersion
  let updatedEnvelope := requestEnvelope updateRequest
  -- `putFilesPublicMagicMetadata` elided: remote accepts the write.
  -- `file.pubMagicMetadata = updatedEnvelope` (data still encrypted),
  -- then `version = version + 1` in place.
  let newEnv : MagicMetadata :=
    { version := updatedEnvelope.version + 1
      count := updatedEnvelope.count
      data := .enc updatedEnvelope.data
      header := updatedEnvelope.header }
  let f2 : EnteFile := { f1 with pubMagicMetadata := some newEnv }
  -- Re-read the data (decrypts and caches the parsed object).
  let (_, f3) ← decryptPublicMagicMetadata f2
  return (updateRequest, f3)

/-- Filtering the non-nullish entries is idempotent. -/
theorem nonNullishEntries_idem (o : JObj) :
    nonNullishEntries (nonNullishEntries o) = nonNullishEntries o := by
  unfold nonNullishEntries
  apply List.filter_eq_self.mpr
  intro p hp
  exact (List.mem_filter.mp hp).2

/-- `decryptPublicMagicMetadata` only rewrites the cached `data` of the
public envelope: every other part of the file is unchanged. -/
theorem decryptPublicMagicMetadata_preserves (f f1 : EnteFile) (ex : Option JObj)
    (h : decryptPublicMagicMetadata f = .ok (ex, f1)) :
    f1.id = f.id ∧ f1.key = f.key ∧ f1.magicMetadata = f.magicMetadata ∧
    f1.pubMagicMetadata.map MagicMetadata.version = f.pubMagicMetadata.map MagicMetadata.version := by
  rcases hp : f.pubMagicMetadata with _ | env
  · rw [decryptPublicMagicMetadata, hp] at h
    simp at h
    obtain ⟨h1, h2⟩ := h
    subst h2
    exact ⟨rfl, rfl, rfl, by rw [hp]⟩
  · rw [decryptPublicMagicMetadata, hp] at h
    dsimp only at h
    split at h
    · simp at h
    · simp at h
      rw [← h.2]
      simp [hp]

/-- The exact behaviour of `updateRemotePrivateMagicMetadata` on a file
whose private envelope is readable: the transmitted request and the
synthesized in-memory envelope. -/
theorem updateRemotePrivateMagicMetadata_eq (f : EnteFile) (updates : JObj) (ex : Option JObj)
    (hpriv : filePrivateMagicMetadata f = .ok ex)
    (hnodup : (objKeys (spreadMerge (ex.getD []) updates)).Nodup) :
    updateRemotePrivateMagicMetadata f updates = .ok
      ({ metadataList := [(f.id,
          { version := (f.magicMetadata.map MagicMetadata.version).getD 1
            count := (nonNullishEntries (spreadMerge (ex.getD []) updates)).length
            data := nonNullishEntries (spreadMerge (ex.getD []) updates)
            header := "header" })] },
       { version := (f.magicMetadata.map MagicMetadata.version).getD 1 + 1
         count := (nonNullishEntries (spreadMerge (ex.getD []) updates)).length
         data := .dec (spreadMerge (ex.getD []) updates)
         header := "header" }) := by
  have hfe : fromEntries (nonNullishEntries (spreadMerge (ex.getD []) updates))
      = nonNullishEntries (spreadMerge (ex.getD []) updates) :=
    fromEntries_eq_self _ (nonNullishEntries_nodup _ hnodup)
  rw [updateRemotePrivateMagicMetadata]
  rw [hpriv]
  simp [Bind.bind, Except.bind, Pure.pure, Except.pure, updateMagicMetadataRequest,
    encryptMetadataJSON, requestEnvelope, nonNullishEntries] at hfe ⊢
  rw [hfe]

/-- Decrypting a public envelope whose payload is a duplicate-free,
nullish-free, parseable object yields exactly that object. -/
theorem decryptPublicMagicMetadata_enc (f : EnteFile) (env : MagicMetadata) (o : JObj)
    (henv : f.pubMagicMetadata = some env) (hdata : env.data = .enc o)
    (hnodup : (objKeys o).Nodup)
    (hnn : ∀ p ∈ o, p.2.isNullish = false)
    (hparse : o.all (fun p => p.1 != "editedTime" || p.2.isNum) = true) :
    decryptPublicMagicMetadata f
      = .ok (some o, { f with pubMagicMetadata := some { env with data := .dec o } }) := by
  rw [decryptPublicMagicMetadata, henv]
  dsimp only
  rw [hdata]
  have h1 : withoutNullAndUndefinedValues o = o := by
    rw [withoutNullAndUndefinedValues]
    have h2 : nonNullishEntries o = o :=
      List.filter_eq_self.mpr (fun p hp => by rw [hnn p hp]; rfl)
    rw [h2]
    exact fromEntries_eq_self o hnodup
  rw [h1, parsePublicMagicMetadata, if_pos hparse]

/-- The exact behaviour of `updateRemotePublicMagicMetadata` on a file
whose public envelope decrypts: the transmitted request, and the updated
in-place file whose public envelope carries the bumped version and the
nullish-stripped merged contents. -/
theorem updateRemotePublicMagicMetadata_eq (f f1 : EnteFile) (updates : JObj) (ex : Option JObj)
    (hdec : decryptPublicMagicMetadata f = .ok (ex, f1))
    (hnodup : (objKeys (spreadMerge (ex.getD []) updates)).Nodup)
    (hparse : (nonNullishEntries (spreadMerge (ex.getD []) updates)).all
        (fun p => p.1 != "editedTime" || p.2.isNum) = true) :
    updateRemotePublicMagicMetadata f updates = .ok
      ({ metadataList := [(f1.id,
          { version := (f1.pubMagicMetadata.map MagicMetadata.version).getD 1
            count := (nonNullishEntries (spreadMerge (ex.getD []) updates)).length
            data := nonNullishEntries (spreadMerge (ex.getD []) updates)
            header := "header" })] },
       { id := f1.id, key := f1.key, magicMetadata := f1.magicMetadata,
         pubMagicMetadata := some
          { version := (f1.pubMagicMetadata.map MagicMetadata.version).getD 1 + 1
            count := (nonNullishEntries (spreadMerge (ex.getD []) updates)).length
            data := .dec (nonNullishEntries (spreadMerge (ex.getD []) updates))
            header := "header" } }) := by
  have hvalidnodup := nonNullishEntries_nodup _ hnodup
  have hfe := fromEntries_eq_self _ hvalidnodup
  have hnn : ∀ p ∈ nonNullishEntries (spreadMerge (ex.getD []) updates),
      p.2.isNullish = false := fun p hp => mem_nonNullishEntries _ p hp
  rw [updateRemotePublicMagicMetadata]
  rw [hdec]
  simp only [Bind.bind, Except.bind]
  dsimp only [updateMagicMetadataRequest, encryptMetadataJSON, requestEnvelope]
  rw [show ((spreadMerge (ex.getD []) updates).filter (fun p => !(p.2.isNullish)))
      = nonNullishEntries (spreadMerge (ex.getD []) updates) from rfl]
  rw [hfe]
  rw [decryptPublicMagicMetadata_enc _ _ _ rfl rfl hvalidnodup hnn hparse]
  simp only [Pure.pure, Except.pure]

/-- C2: for every interactive metadata update (private or public tier),
the transmitted envelope built by `updateMagicMetadataRequest` carries
the pre-update version number (the version currently on the file's
envelope, defaulting to 1 when absent) and a count equal to the number
of keys of the merged object whose values are neither null nor
undefined; only those surviving keys are included in the encrypted
payload, so no null- or undefined-valued key is ever transmitted. -/
theorem interactiveUpdate_transmits_preVersion_and_nonNullish
    (f fp f1 : EnteFile) (updates updatesP : JObj) (ex exP : Option JObj)
    (hpriv : filePrivateMagicMetadata f = .ok ex)
    (hnodup : (objKeys (spreadMerge (ex.getD []) updates)).Nodup)
    (hdec : decryptPublicMagicMetadata fp = .ok (exP, f1))
    (hnodupP : (objKeys (spreadMerge (exP.getD []) updatesP)).Nodup)
    (hparseP : (nonNullishEntries (spreadMerge (exP.getD []) updatesP)).all
        (fun p => p.1 != "editedTime" || p.2.isNum) = true) :
    (∃ r, updateRemotePrivateMagicMetadata f updates = .ok r ∧
      (requestEnvelope r.1).version = (f.magicMetadata.map MagicMetadata.version).getD 1 ∧
      (requestEnvelope r.1).count
        = (nonNullishEntries (spreadMerge (ex.getD []) updates)).length ∧
      (requestEnvelope r.1).data = nonNullishEntries (spreadMerge (ex.getD []) updates) ∧
      (∀ p ∈ (requestEnvelope r.1).data, p.2.isNullish = false)) ∧
    (∃ r, updateRemotePublicMagicMetadata fp updatesP = .ok r ∧
      (requestEnvelope r.1).version = (fp.pubMagicMetadata.map MagicMetadata.version).getD 1 ∧
      (requestEnvelope r.1).count
        = (nonNullishEntries (spreadMerge (exP.getD []) updatesP)).length ∧
      (requestEnvelope r.1).data = nonNullishEntries (spreadMerge (exP.getD []) updatesP) ∧
      (∀ p ∈ (requestEnvelope r.1).data, p.2.isNullish = false)) := by
  constructor
  · refine ⟨_, updateRemotePrivateMagicMetadata_eq f updates ex hpriv hnodup, rfl, rfl, rfl, ?_⟩
    intro p hp
    exact mem_nonNullishEntries _ p hp
  · have hv := (decryptPublicMagicMetadata_preserves fp f1 exP hdec).2.2.2
    refine ⟨_, updateRemotePublicMagicMetadata_eq fp f1 updatesP exP hdec hnodupP hparseP,
      ?_, rfl, rfl, ?_⟩
    · show (f1.pubMagicMetadata.map MagicMetadata.version).getD 1 = _
      rw [hv]
    · intro p hp
      exact mem_nonNullishEntries _ p hp

/-- Witness for C2: a private update of the visibility on a file with an
existing decrypted private envelope, and a public update of the edited
name on a file with an encrypted public envelope. -/
theorem interactiveUpdate_transmits_witness :
    (filePrivateMagicMetadata
        { id := 1, key := "k",
          magicMetadata := some
            { version := 3, count := 1,
              data := .dec [("visibility", JValue.vNum 1)], header := "h" },
          pubMagicMetadata := none }
      = .ok (some [("visibility", JValue.vNum 1)]) ∧
     decryptPublicMagicMetadata
        { id := 2, key := "k", magicMetadata := none,
          pubMagicMetadata := some
            { version := 4, count := 1,
              data := .enc [("caption", JValue.vStr "c")], header := "h" } }
      = .ok (some [("caption", JValue.vStr "c")],
          { id := 2, key := "k", magicMetadata := none,
            pubMagicMetadata := some
              { version := 4, count := 1,
                data := .dec [("caption", JValue.vStr "c")], header := "h" } })) ∧
    ((∃ r, updateRemotePrivateMagicMetadata
        { id := 1, key := "k",
          magicMetadata := some
            { version := 3, count := 1,
              data := .dec [("visibility", JValue.vNum 1)], header := "h" },
          pubMagicMetadata := none }
        [("visibility", JValue.vNum 2)] = .ok r ∧
      (requestEnvelope r.1).version = 3 ∧
      (requestEnvelope r.1).count = 1 ∧
      (requestEnvelope r.1).data = [("visibility", JValue.vNum 2)] ∧
      (∀ p ∈ (requestEnvelope r.1).data, p.2.isNullish = false)) ∧
     (∃ r, updateRemotePublicMagicMetadata
        { id := 2, key := "k", magicMetadata := none,
          pubMagicMetadata := some
            { version := 4, count := 1,
              data := .enc [("caption", JValue.vStr "c")], header := "h" } }
        [("editedName", JValue.vStr "n")] = .ok r ∧
      (requestEnvelope r.1).version = 4 ∧
      (requestEnvelope r.1).count = 2 ∧
      (requestEnvelope r.1).data
        = [("caption", JValue.vStr "c"), ("editedName", JValue.vStr "n")] ∧
      (∀ p ∈ (requestEnvelope r.1).data, p.2.isNullish = false))) := by
  refine ⟨⟨by rfl, by rfl⟩, ?_⟩
  have h := interactiveUpdate_transmits_preVersion_and_nonNullish
    { id := 1, key := "k",
      magicMetadata := some
        { version := 3, count := 1,
          data := .dec [("visibility", JValue.vNum 1)], header := "h" },
      pubMagicMetadata := none }
    { id := 2, key := "k", magicMetadata := none,
      pubMagicMetadata := some
        { version := 4, count := 1,
          data := .enc [("caption", JValue.vStr "c")], header := "h" } }
    { id := 2, key := "k", magicMetadata := none,
      pubMagicMetadata := some
        { version := 4, count := 1,
          data := .dec [("caption", JValue.vStr "c")], header := "h" } }
    [("visibility", JValue.vNum 2)] [("editedName", JValue.vStr "n")]
    (some [("visibility", JValue.vNum 1)]) (some [("caption", JValue.vStr "c")])
    (by rfl) (by decide) (by rfl) (by decide) (by decide)
  obtain ⟨⟨r, hr, h1, h2, h3, h4⟩, hpub⟩ := h
  obtain ⟨rp, hrp, hp1, hp2, hp3, hp4⟩ := hpub
  constructor
  · exact ⟨r, hr, by simpa using h1, by simpa using h2, by simpa using h3, h4⟩
  · exact ⟨rp, hrp, by simpa using hp1, by simpa using hp2, by simpa using hp3, hp4⟩

theorem mem_setKey (o : JObj) (k : String) (v : JValue) (p : String × JValue)
    (hp : p ∈ setKey o k v) : p ∈ o ∨ p = (k, v) := by
  rcases hk : hasKey o k with _ | _
  · rw [setKey_of_not_hasKey o k v hk] at hp
    rcases List.mem_append.mp hp with h | h
    · exact Or.inl h
    · simp at h
      exact Or.inr h
  · simp only [setKey, if_pos hk] at hp
    obtain ⟨q, hq, hqe⟩ := List.mem_map.mp hp
    by_cases hqk : q.1 = k
    · rw [if_pos hqk] at hqe
      exact Or.inr hqe.symm
    · rw [if_neg hqk] at hqe
      rw [← hqe]
      exact Or.inl hq

/-- Rebuilding an object from entries only ever uses the entries'
values. -/
theorem fromEntries_go_values (P : JValue → Prop) :
    ∀ (l acc : JObj), (∀ p ∈ l, P p.2) → (∀ p ∈ acc, P p.2) →
      ∀ p ∈ l.foldl (fun acc p => setKey acc p.1 p.2) acc, P p.2 := by
  intro l
  induction l with
  | nil => intro acc _ hacc p hp; exact hacc p hp
  | cons q l ih =>
    intro acc hl hacc p hp
    refine ih (setKey acc q.1 q.2) (fun r hr => hl r (List.mem_cons_of_mem q hr)) ?_ p hp
    intro r hr
    rcases mem_setKey acc q.1 q.2 r hr with h | h
    · exact hacc r h
    · rw [h]
      exact hl q (List.mem_cons_self q l)

/-- No value surviving `withoutNullAndUndefinedValues` is nullish. -/
theorem withoutNullAndUndefinedValues_values (o : JObj) :
    ∀ p ∈ withoutNullAndUndefinedValues o, p.2.isNullish = false := by
  intro p hp
  refine fromEntries_go_values (fun v => v.isNullish = false) (nonNullishEntries o) []
    (fun r hr => mem_nonNullishEntries o r hr) (by simp) p hp

/-- The loose Zod schema passes the object through unchanged. -/
theorem parsePublicMagicMetadata_ok (o r : JObj)
    (h : parsePublicMagicMetadata o = .ok r) : r = o := by
  rw [parsePublicMagicMetadata] at h
  by_cases hc : o.all (fun p => p.1 != "editedTime" || p.2.isNum) = true
  · rw [if_pos hc] at h
    exact (Except.ok.inj h).symm
  · rw [if_neg hc] at h
    exact absurd h (by simp)

/-- C10: for every file with a public magic metadata envelope, the
object returned by `decryptPublicMagicMetadata` (and cached back onto
the envelope) contains no key whose value is null or undefined: nullish
keys of the decrypted remote JSON are dropped before parsing. -/
theorem decryptPublicMagicMetadata_never_nullish (f f1 : EnteFile) (o : JObj)
    (h : decryptPublicMagicMetadata f = .ok (some o, f1)) :
    (∀ p ∈ o, p.2.isNullish = false) ∧
    (∃ env, f1.pubMagicMetadata = some env ∧ env.data = .dec o) := by
  rcases hp : f.pubMagicMetadata with _ | env
  · rw [decryptPublicMagicMetadata, hp] at h
    simp at h
  · rw [decryptPublicMagicMetadata, hp] at h
    dsimp only at h
    split at h
    · simp at h
    · rename_i result hparse
      simp at h
      obtain ⟨h1, h2⟩ := h
      have hro := parsePublicMagicMetadata_ok _ _ hparse
      subst h1
      constructor
      · intro p hp2
        rw [hro] at hp2
        exact withoutNullAndUndefinedValues_values _ p hp2
      · rw [← h2]
        exact ⟨_, rfl, rfl⟩

/-- Witness for C10 at a concrete file whose public envelope carries a
null-valued key next to a real caption. -/
theorem decryptPublicMagicMetadata_never_nullish_witness :
    (decryptPublicMagicMetadata
        (⟨7, "k", none, some ⟨2, 1, .enc [("caption", JValue.vStr "c"), ("editedName", JValue.vNull)], "h"⟩⟩ : EnteFile)
      = .ok (some [("caption", JValue.vStr "c")],
          (⟨7, "k", none, some ⟨2, 1, .dec [("caption", JValue.vStr "c")], "h"⟩⟩ : EnteFile))) ∧
    ((∀ p ∈ ([("caption", JValue.vStr "c")] : JObj), p.2.isNullish = false) ∧
     (∃ env, (⟨7, "k", none, some ⟨2, 1, .dec [("caption", JValue.vStr "c")], "h"⟩⟩
          : EnteFile).pubMagicMetadata = some env ∧
        env.data = .dec [("caption", JValue.vStr "c")])) :=
  ⟨by rfl, decryptPublicMagicMetadata_never_nullish
    ⟨7, "k", none, some ⟨2, 1, .enc [("caption", JValue.vStr "c"), ("editedName", JValue.vNull)], "h"⟩⟩
    ⟨7, "k", none, some ⟨2, 1, .dec [("caption", JValue.vStr "c")], "h"⟩⟩
    [("caption", JValue.vStr "c")] (by rfl)⟩

/-- C3 counterexample: on the public tier, an update carrying a
null-valued key produces an in-memory content equal to the
nullish-stripped merge, not the plain shallow merge.  Starting from a
file whose public envelope holds version 5 and an empty decrypted
object, updating with `{caption: null}` leaves the cached content empty
even though the shallow merge of the previously known value with the
update is `{caption: null}`. -/
theorem publicUpdate_null_key_content_counterexample :
    ((updateRemotePublicMagicMetadata
        (⟨1, "k", none, some ⟨5, 0, .dec [], "h"⟩⟩ : EnteFile)
        [("caption", JValue.vNull)]).map
        (fun r => r.2.pubMagicMetadata.map (fun e => (e.version, e.data)))
      = .ok (some ((6 : Int), MMData.dec []))) ∧
    spreadMerge ([] : JObj) [("caption", JValue.vNull)] = [("caption", JValue.vNull)] ∧
    MMData.dec [("caption", JValue.vNull)] ≠ MMData.dec [] := by
  refine ⟨by rfl, by rfl, by decide⟩

/-- C3 (amended): after a successful interactive update, the
synthesized in-memory tier object's version is exactly the pre-update
version plus one.  The private tier's content is exactly the shallow
merge of the previously known decrypted value with the caller-supplied
updates; the public tier's content is that merge with null/undefined
valued keys dropped, which equals the plain shallow merge whenever no
supplied value is nullish.  Updates win on key collisions, applying
`{caption: "x"}` then `{editedName: "y"}` to the public tier leaves both
fields present with the version incremented by exactly one per update,
and the second update's request reuses the locally-bumped version as its
pre-update version. -/
theorem interactiveUpdate_version_bump_and_merge
    (f fp f1 : EnteFile) (updates updatesP : JObj) (ex exP : Option JObj)
    (hpriv : filePrivateMagicMetadata f = .ok ex)
    (hnodup : (objKeys (spreadMerge (ex.getD []) updates)).Nodup)
    (hupdnodup : (objKeys updates).Nodup)
    (hdec : decryptPublicMagicMetadata fp = .ok (exP, f1))
    (hnodupP : (objKeys (spreadMerge (exP.getD []) updatesP)).Nodup)
    (hparseP : (nonNullishEntries (spreadMerge (exP.getD []) updatesP)).all
        (fun p => p.1 != "editedTime" || p.2.isNum) = true) :
    (∃ r, updateRemotePrivateMagicMetadata f updates = .ok r ∧
      r.2.version = (f.magicMetadata.map MagicMetadata.version).getD 1 + 1 ∧
      r.2.data = .dec (spreadMerge (ex.getD []) updates)) ∧
    (∀ k, jlookup (spreadMerge (ex.getD []) updates) k
        = (jlookup updates k).or (jlookup (ex.getD []) k)) ∧
    (∃ r, updateRemotePublicMagicMetadata fp updatesP = .ok r ∧
      ∃ env, r.2.pubMagicMetadata = some env ∧
        env.version = (fp.pubMagicMetadata.map MagicMetadata.version).getD 1 + 1 ∧
        env.data = .dec (nonNullishEntries (spreadMerge (exP.getD []) updatesP)) ∧
        ((∀ p ∈ spreadMerge (exP.getD []) updatesP, p.2.isNullish = false) →
          env.data = .dec (spreadMerge (exP.getD []) updatesP))) ∧
    (updateRemotePublicMagicMetadata (⟨1, "k", none, none⟩ : EnteFile)
        [("caption", JValue.vStr "x")]
      = .ok (⟨[(1, ⟨1, 1, [("caption", JValue.vStr "x")], "header"⟩)]⟩,
          ⟨1, "k", none, some ⟨2, 1, .dec [("caption", JValue.vStr "x")], "header"⟩⟩) ∧
     updateRemotePublicMagicMetadata
        (⟨1, "k", none, some ⟨2, 1, .dec [("caption", JValue.vStr "x")], "header"⟩⟩ : EnteFile)
        [("editedName", JValue.vStr "y")]
      = .ok (⟨[(1, ⟨2, 2,
            [("caption", JValue.vStr "x"), ("editedName", JValue.vStr "y")], "header"⟩)]⟩,
          ⟨1, "k", none, some ⟨3, 2,
            .dec [("caption", JValue.vStr "x"), ("editedName", JValue.vStr "y")], "header"⟩⟩)) := by
  refine ⟨?_, ?_, ?_, by rfl, by rfl⟩
  · exact ⟨_, updateRemotePrivateMagicMetadata_eq f updates ex hpriv hnodup, rfl, rfl⟩
  · intro k
    exact jlookup_spreadMerge updates hupdnodup k (ex.getD [])
  · have hv := (decryptPublicMagicMetadata_preserves fp f1 exP hdec).2.2.2
    refine ⟨_, updateRemotePublicMagicMetadata_eq fp f1 updatesP exP hdec hnodupP hparseP,
      ⟨_, rfl, ?_, rfl, ?_⟩⟩
    · show (f1.pubMagicMetadata.map MagicMetadata.version).getD 1 + 1 = _
      rw [hv]
    · intro hnn
      have : nonNullishEntries (spreadMerge (exP.getD []) updatesP)
          = spreadMerge (exP.getD []) updatesP :=
        List.filter_eq_self.mpr (fun p hp => by rw [hnn p hp]; rfl)
      rw [this]

/-- Witness for C3's amended theorem, at the same concrete private and
public updates as the C2 witness. -/
theorem interactiveUpdate_version_bump_witness :
    (filePrivateMagicMetadata
        (⟨1, "k", some ⟨3, 1, .dec [("visibility", JValue.vNum 1)], "h"⟩, none⟩ : EnteFile)
      = .ok (some [("visibility", JValue.vNum 1)])) ∧
    (∃ r, updateRemotePrivateMagicMetadata
        (⟨1, "k", some ⟨3, 1, .dec [("visibility", JValue.vNum 1)], "h"⟩, none⟩ : EnteFile)
        [("visibility", JValue.vNum 2)] = .ok r ∧
      r.2.version = 4 ∧
      r.2.data = .dec [("visibility", JValue.vNum 2)]) := by
  refine ⟨by rfl, ?_⟩
  have h := (interactiveUpdate_version_bump_and_merge
    (⟨1, "k", some ⟨3, 1, .dec [("visibility", JValue.vNum 1)], "h"⟩, none⟩ : EnteFile)
    (⟨2, "k", none, some ⟨4, 1, .enc [("caption", JValue.vStr "c")], "h"⟩⟩ : EnteFile)
    (⟨2, "k", none, some ⟨4, 1, .dec [("caption", JValue.vStr "c")], "h"⟩⟩ : EnteFile)
    [("visibility", JValue.vNum 2)] [("editedName", JValue.vStr "n")]
    (some [("visibility", JValue.vNum 1)]) (some [("caption", JValue.vStr "c")])
    (by rfl) (by decide) (by decide) (by rfl) (by decide) (by decide)).1
  obtain ⟨r, hr, h1, h2⟩ := h
  exact ⟨r, hr, by simpa using h1, by simpa using h2⟩

/-! ## Immutable metadata, content hashes, and the dedup check -/

/-- The Ente file type (`ente-media/file-type`): image, video, or live
photo. -/
inductive FileType
  | image
  | video
  | livePhoto
deriving DecidableEq, Repr

/-- The immutable `Metadata` interface of `file-metadata.ts` (the fields
the embedded operations touch; GPS coordinates and times are modelled as
integers -- no claim inspects their values). -/
structure Metadata where
  fileType : FileType
  title : String
  creationTime : Int
  modificationTime : Int
  latitude : Option Int := none
  longitude : Option Int := none
  hash : Option String := none
  imageHash : Option String := none
  videoHash : Option String := none
  duration : Option Int := none
  hasStaticThumbnail : Bool := false
deriving DecidableEq, Repr

/-- JavaScript truthiness of a possibly-absent string (absent, and the
empty string, are falsy). -/
def optStrTruthy : Option String → Bool
  | some s => s != ""
  | none => false

/-- JavaScript truthiness of a possibly-absent number (absent, and zero,
are falsy). -/
def optIntTruthy : Option Int → Bool
  | some n => n != 0
  | none => false

/-- `metadataHash` from `file-metadata.ts`: the hash when truthy,
otherwise the colon-joined legacy reconstruction for live photos with
both component hashes, otherwise `undefined`. -/
def metadataHash (m : Metadata) : Option String :=
  if optStrTruthy m.hash then m.hash
  else if m.fileType = FileType.livePhoto
      && optStrTruthy m.imageHash && optStrTruthy m.videoHash then
    some ((m.imageHash.getD "") ++ ":" ++ (m.videoHash.getD ""))
  else none

/-- `areFilesSame` from `upload-service.ts`: file type and title must
match, and `fh && gh && fh == gh` must be truthy. -/
def areFilesSame (f g : Metadata) : Bool :=
  if f.fileType ≠ g.fileType ∨ f.title ≠ g.title then false
  else
    optStrTruthy (metadataHash f) && optStrTruthy (metadataHash g)
      && ((metadataHash f).getD "" == (metadataHash g).getD "")

/-- `metadataHash` never returns the empty string. -/
theorem metadataHash_ne_empty (m : Metadata) (h : String)
    (hm : metadataHash m = some h) : h ≠ "" := by
  rw [metadataHash] at hm
  by_cases h1 : optStrTruthy m.hash = true
  · rw [if_pos h1] at hm
    rcases hh : m.hash with _ | a
    · rw [hh] at h1; simp [optStrTruthy] at h1
    · rw [hh] at hm h1
      simp [optStrTruthy] at h1
      rw [Option.some.injEq] at hm
      rw [← hm]
      simpa using h1
  · rw [if_neg h1] at hm
    by_cases h2 : (m.fileType = FileType.livePhoto
        && optStrTruthy m.imageHash && optStrTruthy m.videoHash) = true
    · rw [if_pos h2] at hm
      rw [Option.some.injEq] at hm
      intro he
      rw [← hm] at he
      have := congrArg String.length he
      simp [String.length_append] at this
      exact absurd this.1.2 (by decide)
    · rw [if_neg h2] at hm
      simp at hm

/-- C5: `areFilesSame f g` returns true iff the file types are equal,
the titles are equal, and the two metadata hashes are both present,
non-empty, and equal; in particular a record with an absent hash is
never reported as the same as any other. -/
theorem areFilesSame_iff (f g : Metadata) :
    areFilesSame f g = true ↔
      (f.fileType = g.fileType ∧ f.title = g.title ∧
        ∃ h, h ≠ "" ∧ metadataHash f = some h ∧ metadataHash g = some h) := by
  rw [areFilesSame]
  by_cases hft : f.fileType = g.fileType
  · by_cases ht : f.title = g.title
    · rw [if_neg (by simp [hft, ht])]
      constructor
      · intro hb
        simp only [Bool.and_eq_true] at hb
        obtain ⟨⟨h1, h2⟩, h3⟩ := hb
        rcases hf : metadataHash f with _ | a
        · rw [hf] at h1; simp [optStrTruthy] at h1
        rcases hg : metadataHash g with _ | b
        · rw [hg] at h2; simp [optStrTruthy] at h2
        rw [hf, hg] at h3
        simp at h3
        refine ⟨hft, ht, a, metadataHash_ne_empty f a hf, rfl, ?_⟩
        rw [h3]
      · rintro ⟨-, -, h, hne, hf, hg⟩
        rw [hf, hg]
        simp [optStrTruthy, hne]
    · rw [if_pos (by simp [ht])]
      constructor
      · intro hb; simp at hb
      · rintro ⟨-, ht2, -⟩; exact absurd ht2 ht
  · rw [if_pos (by simp [hft])]
    constructor
    · intro hb; simp at hb
    · rintro ⟨hft2, -, -⟩; exact absurd hft2 hft

/-! ## Metadata extraction (`extractImageOrVideoMetadata`,
`extractLivePhotoMetadata`)

The Exif/ffmpeg extractors, the sidecar-JSON matcher, and the
file-name date parser are external collaborators; their outputs are
inputs of the model.  `computeHash`'s result for the item is likewise an
input here (its own behaviour is modelled separately below).
-/

/-- `ParsedMetadataDate` from `file-metadata.ts`. -/
structure ParsedMetadataDateM where
  dateTime : String
  offset : Option String
  timestamp : Int
deriving DecidableEq, Repr

/-- `ParsedMetadata` from `file-metadata.ts`, together with the
`creationTime` extension of `ExternalParsedMetadata`. -/
structure ParsedMetadataM where
  width : Option Int := none
  height : Option Int := none
  creationDate : Option ParsedMetadataDateM := none
  creationTime : Option Int := none
  location : Option (Int × Int) := none
  description : Option String := none
deriving DecidableEq, Repr

/-- The fields of a sidecar `ParsedMetadataJSON`
(`metadata-json.ts`, an external collaborator) that the extraction
reads. -/
structure ParsedMetadataJSONM where
  creationTime : Option Int := none
  modificationTime : Option Int := none
  location : Option (Int × Int) := none
  description : Option String := none
deriving DecidableEq, Repr

/-- The `PublicMagicMetadata` object assembled during extraction. -/
structure PublicMagicMetadataProps where
  dateTime : Option String := none
  offsetTime : Option String := none
  w : Option Int := none
  h : Option Int := none
  caption : Option String := none
deriving DecidableEq, Repr

/-- `${x}` for a possibly-undefined string (JavaScript renders an
undefined interpolant as the literal text "undefined"). -/
def templateToString : Option String → String
  | some s => s
  | none => "undefined"

/-- `extractImageOrVideoMetadata` from `upload-service.ts` (lines
1031-1143), over the collaborator outputs: the already-merged parsed
metadata, the matched sidecar JSON, the computed content hash, the
file-name-derived epoch, and (for videos) the determined duration.
`Math.ceil` on the already-integral modelled duration is the
identity. -/
def extractImageOrVideoMetadata (fileName : String) (fileType : FileType)
    (parsedMetadata : Option ParsedMetadataM)
    (parsedMetadataJSON : Option ParsedMetadataJSONM)
    (hash : String) (lastModifiedMs : Int) (durationRaw : Option Int)
    (fileNameEpoch : Option Int) :
    Except String (Metadata × PublicMagicMetadataProps) :=
  if fileType = FileType.image ∨ fileType = FileType.video then
    let modificationTime := (parsedMetadataJSON.bind (·.modificationTime)).getD
      (lastModifiedMs * 1000)
    let cd := parsedMetadata.bind (·.creationDate)
    let creationTimeDateOffset : Int × Option String × Option String :=
      if optIntTruthy (parsedMetadataJSON.bind (·.creationTime)) then
        ((parsedMetadataJSON.bind (·.creationTime)).getD 0, none, none)
      else match cd with
        | some d => (d.timestamp, some d.dateTime,
            if optStrTruthy d.offset then d.offset else none)
        | none =>
          if optIntTruthy (parsedMetadata.bind (·.creationTime)) then
            ((parsedMetadata.bind (·.creationTime)).getD 0, none, none)
          else (fileNameEpoch.getD modificationTime, none, none)
    let duration := if fileType = FileType.video then durationRaw else none
    let location := (parsedMetadataJSON.bind (·.location)).or
      (parsedMetadata.bind (·.location))
    let caption := (parsedMetadataJSON.bind (·.description)).or
      (parsedMetadata.bind (·.description))
    .ok
      ({ fileType := fileType
         title := fileName
         creationTime := creationTimeDateOffset.1
         modificationTime := modificationTime
         hash := some hash
         duration := if optIntTruthy duration then duration else none
         latitude := location.map Prod.fst
         longitude := location.map Prod.snd },
       { dateTime := creationTimeDateOffset.2.1
         offsetTime := creationTimeDateOffset.2.2
         w := if parsedMetadata.isSome
           && optIntTruthy (parsedMetadata.bind (·.width)) then
             parsedMetadata.bind (·.width) else none
         h := if parsedMetadata.isSome
           && optIntTruthy (parsedMetadata.bind (·.height)) then
             parsedMetadata.bind (·.height) else none
         caption := if optStrTruthy caption then caption else none })
  else .error "Unexpected file type"

/-- `extractLivePhotoMetadata` from `upload-service.ts` (lines
989-1029): extract the image component's metadata (its own
`computeHash` giving `imageHash`), hash the video component separately,
and join the two hashes with a colon. -/
def extractLivePhotoMetadata (imageFileName : String)
    (imageParsedMetadata : Option ParsedMetadataM)
    (imageParsedMetadataJSON : Option ParsedMetadataJSONM)
    (imageHash : String) (lastModifiedMs : Int) (imageFileNameEpoch : Option Int)
    (videoHash : String) :
    Except String (Metadata × PublicMagicMetadataProps) := do
  let (imageMetadata, publicMagicMetadata) ← extractImageOrVideoMetadata imageFileName
    FileType.image imageParsedMetadata imageParsedMetadataJSON imageHash lastModifiedMs
    none imageFileNameEpoch
  let hash := templateToString imageMetadata.hash ++ ":" ++ videoHash
  return ({ imageMetadata with
      title := imageFileName
      fileType := FileType.livePhoto
      hash := some hash },
    publicMagicMetadata)

/-- `extractImageOrVideoMetadata` always records the computed hash. -/
theorem extractImageOrVideoMetadata_hash (fileName : String) (fileType : FileType)
    (pm : Option ParsedMetadataM) (pmj : Option ParsedMetadataJSONM)
    (hash : String) (lastModifiedMs : Int) (durationRaw : Option Int)
    (fileNameEpoch : Option Int) (m : Metadata) (pub : PublicMagicMetadataProps)
    (h : extractImageOrVideoMetadata fileName fileType pm pmj hash lastModifiedMs
      durationRaw fileNameEpoch = .ok (m, pub)) :
    m.hash = some hash := by
  rw [extractImageOrVideoMetadata] at h
  by_cases hft : fileType = FileType.image ∨ fileType = FileType.video
  · rw [if_pos hft] at h
    simp only [Except.ok.injEq, Prod.mk.injEq] at h
    rw [← h.1]
  · rw [if_neg hft] at h
    exact absurd h (by simp)

/-- C6: for every live photo, the content hash recorded in its
immutable metadata is exactly the image component's hash and the video
component's hash joined with a colon; and for a legacy live photo whose
metadata lacks the `hash` field but has both `imageHash` and
`videoHash`, `metadataHash` reconstructs exactly this same colon-joined
composite. -/
theorem livePhoto_colon_joined_hash
    (imageFileName : String) (ipm : Option ParsedMetadataM)
    (ipmj : Option ParsedMetadataJSONM) (imageHash : String)
    (lastModifiedMs : Int) (imageFileNameEpoch : Option Int) (videoHash : String)
    (m : Metadata) (ih vh : String)
    (hLegacyAbsent : m.hash = none ∨ m.hash = some "")
    (hLegacyType : m.fileType = FileType.livePhoto)
    (hLegacyImage : m.imageHash = some ih) (hLegacyVideo : m.videoHash = some vh)
    (hihne : ih ≠ "") (hvhne : vh ≠ "") :
    (∃ lm pub, extractLivePhotoMetadata imageFileName ipm ipmj imageHash
        lastModifiedMs imageFileNameEpoch videoHash = .ok (lm, pub) ∧
      lm.hash = some (imageHash ++ ":" ++ videoHash) ∧
      lm.fileType = FileType.livePhoto ∧
      lm.title = imageFileName) ∧
    metadataHash m = some (ih ++ ":" ++ vh) := by
  constructor
  · rcases hx : extractImageOrVideoMetadata imageFileName FileType.image ipm ipmj
        imageHash lastModifiedMs none imageFileNameEpoch with e | r
    · exact absurd hx (by
        rw [extractImageOrVideoMetadata]
        rw [if_pos (Or.inl rfl)]
        simp)
    · have hhash : r.1.hash = some imageHash :=
        extractImageOrVideoMetadata_hash imageFileName FileType.image ipm ipmj
          imageHash lastModifiedMs none imageFileNameEpoch r.1 r.2 (by rw [hx])
      have hres : extractLivePhotoMetadata imageFileName ipm ipmj imageHash
          lastModifiedMs imageFileNameEpoch videoHash
          = .ok ({ r.1 with title := imageFileName, fileType := FileType.livePhoto, hash := some (templateToString r.1.hash ++ ":" ++ videoHash) }, r.2) := by
        rw [extractLivePhotoMetadata, hx]
        rfl
      refine ⟨_, _, hres, ?_, ?_, ?_⟩
      · show some (templateToString r.1.hash ++ ":" ++ videoHash) = _
        rw [hhash]
        rfl
      · rfl
      · rfl
  · rw [metadataHash]
    have h1 : optStrTruthy m.hash = false := by
      rcases hLegacyAbsent with h | h <;> rw [h] <;> rfl
    rw [h1]
    simp only [Bool.false_eq_true, if_false]
    rw [if_pos (by
      rw [hLegacyType, hLegacyImage, hLegacyVideo]
      simp [optStrTruthy, hihne, hvhne])]
    rw [hLegacyImage, hLegacyVideo]
    rfl

/-- Witness for C6: a concrete live photo with image hash "abc" and
video hash "def", and a concrete legacy record with the separate
component hashes. -/
theorem livePhoto_colon_joined_hash_witness :
    ((⟨FileType.livePhoto, "t", 0, 0, none, none, none, some "abc", some "def",
        none, false⟩ : Metadata).hash = none ∨
      (⟨FileType.livePhoto, "t", 0, 0, none, none, none, some "abc", some "def",
        none, false⟩ : Metadata).hash = some "") ∧
    ("abc" ≠ "" ∧ "def" ≠ "") ∧
    ((∃ lm pub, extractLivePhotoMetadata "IMG.jpg" none none "abc" 0 none "def"
        = .ok (lm, pub) ∧
      lm.hash = some ("abc" ++ ":" ++ "def") ∧
      lm.fileType = FileType.livePhoto ∧
      lm.title = "IMG.jpg") ∧
     metadataHash (⟨FileType.livePhoto, "t", 0, 0, none, none, none, some "abc",
        some "def", none, false⟩ : Metadata) = some ("abc" ++ ":" ++ "def")) := by
  refine ⟨Or.inl rfl, ⟨by decide, by decide⟩, ?_⟩
  exact livePhoto_colon_joined_hash "IMG.jpg" none none "abc" 0 none "def"
    ⟨FileType.livePhoto, "t", 0, 0, none, none, none, some "abc", some "def", none, false⟩
    "abc" "def" (Or.inl rfl) rfl rfl rfl (by decide) (by decide)

/-! ## `computeHash` and `encryptFileStream` -/

/-- `computeHash` from `upload-service.ts`: the loop reading exactly
`chunkCount` chunks (throwing when the stream ends early), followed by
the check that the stream is exhausted (throwing on surplus chunks).
The libsodium incremental hash state is the list of chunks fed so far;
the digest is an abstract function `hashFinal` of them. -/
def computeHashLoop (hashFinal : List (List Nat) → String) :
    Nat → List (List Nat) → List (List Nat) → Except String String
  | 0, acc, rest =>
    match rest with
    | [] => .ok (hashFinal acc)
    | _ :: _ => .error "More chunks than expected"
  | i + 1, acc, rest =>
    match rest with
    | [] => .error "Less chunks than expected"
    | c :: cs => computeHashLoop hashFinal i (acc ++ [c]) cs

/-- `computeHash` from `upload-service.ts`: read the upload item and
hash its chunk stream. -/
def computeHash (hashFinal : List (List Nat) → String)
    (underlying : List (List Nat)) (fileSize lastModifiedMs : Nat) :
    Except String String :=
  let fs := readUploadItem underlying fileSize lastModifiedMs
  computeHashLoop hashFinal fs.chunkCount [] fs.stream

theorem computeHashLoop_spec (hashFinal : List (List Nat) → String) :
    ∀ (n : Nat) (rest acc : List (List Nat)),
      computeHashLoop hashFinal n acc rest =
        if rest.length < n then .error "Less chunks than expected"
        else if n < rest.length then .error "More chunks than expected"
        else .ok (hashFinal (acc ++ rest)) := by
  intro n
  induction n with
  | zero =>
    intro rest acc
    rcases rest with _ | ⟨c, cs⟩
    · simp [computeHashLoop]
    · simp [computeHashLoop]
  | succ n ih =>
    intro rest acc
    rcases rest with _ | ⟨c, cs⟩
    · simp [computeHashLoop]
    · show computeHashLoop hashFinal n (acc ++ [c]) cs = _
      rw [ih cs (acc ++ [c])]
      simp only [List.length_cons, List.append_assoc, List.singleton_append]
      split_ifs <;> first | rfl | omega

/-- An encrypted chunk produced by the streaming cipher session.  The
cipher (`worker.encryptStreamChunk`, an external collaborator) is
modelled by recording its inputs: the plaintext chunk the pull obtained
from the reader (`none` when the reader was already done, i.e. the JS
code passed `undefined`), and the final-chunk flag it was told. -/
structure EncChunk where
  data : Option (List Nat)
  isFinal : Bool
deriving DecidableEq, Repr

/-- The `pull` loop of the `ReadableStream` built by
`encryptFileStream`: each pull reads the next plaintext chunk (possibly
`undefined`), encrypts it with the final flag set iff
`pullCount === chunkCount`, enqueues it, and closes the stream after the
`chunkCount`-th pull.  (When `chunkCount = 0` the close condition never
fires; the guard returns `[]`, standing for that degenerate session.) -/
def encryptChunksLoop (chunkCount : Nat) (pullCount : Nat) (rest : List (List Nat)) :
    List EncChunk :=
  if _h1 : chunkCount < pullCount then []
  else
    let enc : EncChunk := { data := rest.head?, isFinal := decide (pullCount = chunkCount) }
    if _h2 : pullCount = chunkCount then [enc]
    else enc :: encryptChunksLoop chunkCount (pullCount + 1) rest.tail
termination_by chunkCount + 1 - pullCount
decreasing_by omega

/-- The encrypted counterpart of a `FileStream`
(the `EncryptedFileStream` interface). -/
structure EncryptedStreamPieces where
  stream : List EncChunk
  chunkCount : Nat
deriving DecidableEq, Repr

/-- The value returned by `encryptFileStream`. -/
structure EncryptedFileStreamResult where
  decryptionHeader : String
  encryptedData : EncryptedStreamPieces
deriving DecidableEq, Repr

/-- `encryptFileStream` from `upload-service.ts`: initialize a chunk
encryption session (header modelled as a fixed token) and produce the
pull-driven encrypted stream, carrying over the input's `chunkCount`
unchanged. -/
def encryptFileStream (fs : FileStream) : EncryptedFileStreamResult :=
  { decryptionHeader := "header"
    encryptedData :=
      { stream := encryptChunksLoop fs.chunkCount 1 fs.stream
        chunkCount := fs.chunkCount } }

theorem encryptChunksLoop_eq (chunkCount : Nat) :
    ∀ (fuel pullCount : Nat) (rest : List (List Nat)),
      chunkCount + 1 - pullCount = fuel → 1 ≤ pullCount → pullCount ≤ chunkCount →
      encryptChunksLoop chunkCount pullCount rest
        = (List.range (chunkCount + 1 - pullCount)).map
            (fun i => ⟨rest[i]?, decide (pullCount + i = chunkCount)⟩) := by
  intro fuel
  induction fuel with
  | zero => intro pullCount rest hf h1 h2; omega
  | succ n ih =>
    intro pullCount rest hf h1 h2
    rw [encryptChunksLoop]
    rw [dif_neg (by omega)]
    by_cases he : pullCount = chunkCount
    · rw [dif_pos he]
      have : chunkCount + 1 - pullCount = 1 := by omega
      rw [this]
      subst he
      simp [List.range_succ, List.head?_eq_getElem?]
    · rw [dif_neg he]
      rw [ih (pullCount + 1) rest.tail (by omega) (by omega) (by omega)]
      have hr : chunkCount + 1 - pullCount = (chunkCount + 1 - (pullCount + 1)) + 1 := by
        omega
      rw [hr, List.range_succ_eq_map]
      rw [List.map_cons, List.map_map]
      congr 1
      · simp [List.head?_eq_getElem?, he]
      · apply List.map_congr_left
        intro i _
        simp only [Function.comp_apply]
        congr 1
        · rcases rest with _ | ⟨c, cs⟩ <;> simp
        · exact decide_eq_decide.mpr (by omega)

/-- The stream produced by `encryptFileStream` always has exactly the
declared number of chunks: the `i`-th encrypted chunk carries plaintext
chunk `i` (or nothing when the plaintext ran short) and the final flag
exactly on the last one. -/
theorem encryptFileStream_stream (fs : FileStream) :
    (encryptFileStream fs).encryptedData.stream
      = (List.range fs.chunkCount).map
          (fun i => ⟨fs.stream[i]?, decide (i + 1 = fs.chunkCount)⟩) := by
  show encryptChunksLoop fs.chunkCount 1 fs.stream = _
  rcases hc : fs.chunkCount with _ | n
  · rw [encryptChunksLoop]
    rw [dif_pos (by omega)]
    simp
  · rw [encryptChunksLoop_eq (n + 1) (n + 1) 1 fs.stream (by omega) (by omega) (by omega)]
    have : n + 1 + 1 - 1 = n + 1 := by omega
    rw [this]
    apply List.map_congr_left
    intro i _
    congr 1
    exact decide_eq_decide.mpr (by omega)

/-- C7 counterexample: a `FileStream` whose stream actually yields two
chunks while declaring `chunkCount = 1` (the situation where the source
produced more chunks than declared) is encrypted by `encryptFileStream`
without any error: exactly one encrypted chunk is produced, marked
final, and the second plaintext chunk is silently never consumed, so
the mismatch is not detected and the operation does not abort. -/
theorem encryptFileStream_silent_truncation :
    (encryptFileStream ⟨[[1], [2]], 1, 2, 0⟩).encryptedData.stream
      = [⟨some [1], true⟩] ∧
    (encryptFileStream ⟨[[1], [2]], 1, 2, 0⟩).encryptedData.chunkCount = 1 ∧
    (⟨[[1], [2]], 1, 2, 0⟩ : FileStream).stream.length = 2 := by
  refine ⟨?_, rfl, rfl⟩
  rw [encryptFileStream_stream ⟨[[1], [2]], 1, 2, 0⟩]
  rfl

/-- C7 (amended): `computeHash` detects a mismatch between the declared
chunk count and the chunks actually produced, in both directions, and
throws instead of truncating or padding; `encryptFileStream` itself
performs no such check: it always emits exactly the declared
`chunkCount` encrypted chunks (the `i`-th carrying plaintext chunk `i`
when available and nothing otherwise, with only the last marked final),
leaving surplus plaintext chunks unconsumed without error. -/
theorem chunkCount_mismatch_handling
    (hashFinal : List (List Nat) → String) (underlying : List (List Nat))
    (fileSize lastModifiedMs : Nat) (fs : FileStream) :
    ((readUploadItem underlying fileSize lastModifiedMs).stream.length
        < (readUploadItem underlying fileSize lastModifiedMs).chunkCount →
      computeHash hashFinal underlying fileSize lastModifiedMs
        = .error "Less chunks than expected") ∧
    ((readUploadItem underlying fileSize lastModifiedMs).chunkCount
        < (readUploadItem underlying fileSize lastModifiedMs).stream.length →
      computeHash hashFinal underlying fileSize lastModifiedMs
        = .error "More chunks than expected") ∧
    ((readUploadItem underlying fileSize lastModifiedMs).stream.length
        = (readUploadItem underlying fileSize lastModifiedMs).chunkCount →
      computeHash hashFinal underlying fileSize lastModifiedMs
        = .ok (hashFinal (readUploadItem underlying fileSize lastModifiedMs).stream)) ∧
    ((encryptFileStream fs).encryptedData.chunkCount = fs.chunkCount ∧
     (encryptFileStream fs).encryptedData.stream.length = fs.chunkCount ∧
     ∀ i, i < fs.chunkCount →
       (encryptFileStream fs).encryptedData.stream[i]?
         = some ⟨fs.stream[i]?, decide (i + 1 = fs.chunkCount)⟩) := by
  have hch : computeHash hashFinal underlying fileSize lastModifiedMs
      = computeHashLoop hashFinal
          (readUploadItem underlying fileSize lastModifiedMs).chunkCount []
          (readUploadItem underlying fileSize lastModifiedMs).stream := rfl
  refine ⟨?_, ?_, ?_, rfl, ?_, ?_⟩
  · intro hlt
    rw [hch, computeHashLoop_spec, if_pos hlt]
  · intro hgt
    rw [hch, computeHashLoop_spec, if_neg (by omega), if_pos hgt]
  · intro heq
    rw [hch, computeHashLoop_spec, if_neg (by omega), if_neg (by omega)]
    rw [List.nil_append]
  · rw [encryptFileStream_stream]
    simp
  · intro i hi
    rw [encryptFileStream_stream]
    rw [List.getElem?_map, List.getElem?_range hi]
    rfl

/-- Witness for C7's amended theorem: an empty source declared as one
byte makes `computeHash` throw the too-few error; a well-formed
one-chunk stream is encrypted into exactly one chunk. -/
theorem chunkCount_mismatch_handling_witness :
    ((readUploadItem ([] : List (List Nat)) 1 0).stream.length
        < (readUploadItem ([] : List (List Nat)) 1 0).chunkCount) ∧
    (computeHash (fun _ => "digest") ([] : List (List Nat)) 1 0
        = .error "Less chunks than expected") ∧
    ((encryptFileStream ⟨[[1]], 1, 1, 0⟩).encryptedData.stream.length = 1) :=
  ⟨by decide,
   (chunkCount_mismatch_handling (fun _ => "digest") [] 1 0 ⟨[[1]], 1, 1, 0⟩).1 (by decide),
   (chunkCount_mismatch_handling (fun _ => "digest") [] 1 0 ⟨[[1]], 1, 1, 0⟩).2.2.2.2.1⟩

/-! ## Multipart upload (`uploadToBucket`, `uploadStreamUsingMultipart`)

The pre-signed URLs, the part `PUT`s and the completion call are network
collaborators; the model records the parts that were `PUT`, the
completion call's payload (when it is issued), and the outcome.  The
remote-supplied eTags and the user's cancellation flag are inputs. -/

/-- The errors the multipart path can throw: the distinguished
cancellation signal (`CustomError.UPLOAD_CANCELLED`), the missing
integrity tag (`CustomErrorMessage.eTagMissing`), and the surplus-chunk
check. -/
inductive UploadErrModel
  | uploadCancelled
  | eTagMissing
  | moreChunks
deriving DecidableEq, Repr

/-- The environment of a multipart upload: whether the cancellation flag
is raised when checked at the boundary before part index `i` (0-based),
and the eTag remote returns for the part with the given part number. -/
structure MultipartEnv where
  cancelledBefore : Nat → Bool
  etagOf : Nat → String

/-- The read loop of `nextMultipartUploadPart`: up to
`multipartChunksPerPart` chunks from the reader. -/
def nextMultipartUploadPartLoop : Nat → List (List Nat) → List (List Nat) × List (List Nat)
  | 0, rest => ([], rest)
  | _ + 1, [] => ([], [])
  | i + 1, c :: cs =>
    let r := nextMultipartUploadPartLoop i cs
    (c :: r.1, r.2)

/-- `nextMultipartUploadPart` from `upload-service.ts`: merge the next
(up to) 5 chunks into one part body (`mergeUint8Arrays` is
concatenation). -/
def nextMultipartUploadPart (rest : List (List Nat)) : List Nat × List (List Nat) :=
  let r := nextMultipartUploadPartLoop multipartChunksPerPart rest
  (r.1.flatten, r.2)

theorem nextMultipartUploadPartLoop_eq :
    ∀ (n : Nat) (l : List (List Nat)),
      nextMultipartUploadPartLoop n l = (l.take n, l.drop n) := by
  intro n
  induction n with
  | zero => intro l; simp [nextMultipartUploadPartLoop]
  | succ n ih =>
    intro l
    rcases l with _ | ⟨c, cs⟩
    · simp [nextMultipartUploadPartLoop]
    · show (c :: (nextMultipartUploadPartLoop n cs).1, (nextMultipartUploadPartLoop n cs).2) = _
      rw [ih cs]
      simp

/-- The mutable state of the `for` loop over the part upload URLs. -/
structure MultipartState where
  putParts : List (Nat × List Nat)
  completedParts : List (Nat × String)
  fileSize : Nat
  rest : List (List Nat)
  err : Option UploadErrModel
deriving DecidableEq, Repr

/-- The `for` loop of `uploadStreamUsingMultipart` over the part upload
URLs (`n` of them remain; `idx` is the current 0-based index): check the
cancellation flag, read the next part body, `PUT` it, require a
non-empty eTag, and record the completed part. -/
def runMultipartParts (env : MultipartEnv) : Nat → Nat → MultipartState → MultipartState
  | 0, _, st => st
  | n + 1, idx, st =>
    if env.cancelledBefore idx then { st with err := some .uploadCancelled }
    else
      let partNumber := idx + 1
      let pd := nextMultipartUploadPart st.rest
      let eTag := env.etagOf partNumber
      let stPut : MultipartState :=
        { putParts := st.putParts ++ [(partNumber, pd.1)]
          completedParts := st.completedParts
          fileSize := st.fileSize + pd.1.length
          rest := pd.2
          err := none }
      if eTag = "" then { stPut with err := some .eTagMissing }
      else runMultipartParts env n (idx + 1)
        { stPut with completedParts := st.completedParts ++ [(partNumber, eTag)] }

/-- What a multipart upload did: the parts that were `PUT` (in order),
the payload of the completion call when it was issued, and the outcome
(the object key and accumulated file size on success). -/
structure MultipartResult where
  putParts : List (Nat × List Nat)
  completion : Option (List (Nat × String))
  outcome : Except UploadErrModel (String × Nat)
deriving Repr

/-- `uploadStreamUsingMultipart` from `upload-service.ts`: fetch
`ceil(chunkCount / multipartChunksPerPart)` part URLs, upload the parts
sequentially, verify the stream is exhausted, then issue the completion
call with the ordered completed parts. -/
def uploadStreamUsingMultipart (env : MultipartEnv) (stream : List (List Nat))
    (chunkCount : Nat) : MultipartResult :=
  let uploadPartCount := (chunkCount + multipartChunksPerPart - 1) / multipartChunksPerPart
  let st := runMultipartParts env uploadPartCount 0 ⟨[], [], 0, stream, none⟩
  match st.err with
  | some e => { putParts := st.putParts, completion := none, outcome := .error e }
  | none =>
    if st.rest.isEmpty then
      { putParts := st.putParts, completion := some st.completedParts,
        outcome := .ok ("objectKey", st.fileSize) }
    else
      { putParts := st.putParts, completion := none, outcome := .error .moreChunks }

/-- The encrypted file data handed to `uploadToBucket`: either an
in-memory buffer or an encrypted chunk stream with its chunk count. -/
inductive EncryptedFileData
  | bytes (data : List Nat)
  | stream (s : List (List Nat)) (chunkCount : Nat)
deriving DecidableEq, Repr

/-- Which upload path `uploadToBucket` takes for the file object. -/
inductive BucketUpload
  | singlePut (data : List Nat)
  | multipart (r : MultipartResult)
deriving Repr

/-- The file-object branch of `uploadToBucket` from `upload-service.ts`:
a stream of at least `multipartChunksPerPart` chunks goes through the
multipart path; an in-memory buffer, or a shorter stream (read entirely
into memory), is uploaded with a single `PUT`. -/
def uploadToBucket (env : MultipartEnv) (d : EncryptedFileData) : BucketUpload :=
  match d with
  | .bytes data => .singlePut data
  | .stream s chunkCount =>
    if multipartChunksPerPart ≤ chunkCount then
      .multipart (uploadStreamUsingMultipart env s chunkCount)
    else .singlePut s.flatten

theorem nextMultipartUploadPart_eq (rest : List (List Nat)) :
    nextMultipartUploadPart rest
      = ((rest.take multipartChunksPerPart).flatten, rest.drop multipartChunksPerPart) := by
  rw [nextMultipartUploadPart, nextMultipartUploadPartLoop_eq]

/-- The part loop, when never cancelled and with non-empty eTags,
uploads one part per URL: part `j` (0-based) carries the flattened next
5-chunk group, and the completed parts list the eTags in part-number
order. -/
theorem runMultipartParts_ok (env : MultipartEnv)
    (hnc : ∀ i, env.cancelledBefore i = false)
    (het : ∀ i, env.etagOf i ≠ "") :
    ∀ (n idx : Nat) (st : MultipartState), st.err = none →
      runMultipartParts env n idx st =
        { putParts := st.putParts ++ (List.range n).map
            (fun j => (idx + j + 1,
              ((st.rest.drop (multipartChunksPerPart * j)).take multipartChunksPerPart).flatten))
          completedParts := st.completedParts ++ (List.range n).map
            (fun j => (idx + j + 1, env.etagOf (idx + j + 1)))
          fileSize := st.fileSize + ((st.rest.take (multipartChunksPerPart * n)).flatten).length
          rest := st.rest.drop (multipartChunksPerPart * n)
          err := none } := by
  intro n
  induction n with
  | zero =>
    intro idx st h
    cases st with
    | mk pp cp fsz rest err =>
      simp only at h
      subst h
      show MultipartState.mk pp cp fsz rest none = _
      simp
  | succ n ih =>
    intro idx st h
    show runMultipartParts env (n + 1) idx st = _
    rw [runMultipartParts]
    rw [hnc idx]
    simp only [Bool.false_eq_true, if_false]
    rw [if_neg (het (idx + 1))]
    rw [ih (idx + 1) _ rfl]
    rw [nextMultipartUploadPart_eq]
    dsimp only
    congr 1
    · rw [List.append_assoc]
      congr 1
      rw [List.range_succ_eq_map, List.map_cons, List.map_map, List.singleton_append]
      congr 1
      apply List.map_congr_left
      intro j _
      simp only [Function.comp_apply, Nat.succ_eq_add_one]
      rw [List.drop_drop]
      have h1 : idx + 1 + j + 1 = idx + (j + 1) + 1 := by omega
      have h2 : multipartChunksPerPart + multipartChunksPerPart * j
          = multipartChunksPerPart * (j + 1) := by ring
      rw [h1, h2]
    · rw [List.append_assoc]
      congr 1
      rw [List.range_succ_eq_map, List.map_cons, List.map_map, List.singleton_append]
      congr 1
      apply List.map_congr_left
      intro j _
      simp only [Function.comp_apply, Nat.succ_eq_add_one]
      have h1 : idx + 1 + j + 1 = idx + (j + 1) + 1 := by omega
      rw [h1]
    · show st.fileSize + ((st.rest.take multipartChunksPerPart).flatten).length
          + (((st.rest.drop multipartChunksPerPart).take (multipartChunksPerPart * n)).flatten).length
        = st.fileSize + ((st.rest.take (multipartChunksPerPart * (n + 1))).flatten).length
      have hsplit : st.rest.take (multipartChunksPerPart * (n + 1))
          = st.rest.take multipartChunksPerPart
            ++ (st.rest.drop multipartChunksPerPart).take (multipartChunksPerPart * n) := by
        rw [show multipartChunksPerPart * (n + 1)
            = multipartChunksPerPart + multipartChunksPerPart * n from by ring]
        exact List.take_add _ _ _
      rw [hsplit, List.flatten_append, List.length_append]
      omega
    · rw [List.drop_drop]
      congr 1
      ring
/-- C4: an encrypted stream of `chunkCount ≥ 5` chunks is uploaded as a
multipart upload with `ceil(chunkCount / 5)` parts, each part carrying
the next 5 encryption chunks (fewer only for the last); parts carry
part numbers `1..n` in strictly increasing order and the completion call
receives exactly `n` (partNumber, eTag) pairs in ascending partNumber
order.  A stream of fewer than 5 chunks, or an in-memory buffer, is
uploaded with a single `PUT` instead. -/
theorem uploadToBucket_multipart_spec (env : MultipartEnv) (s : List (List Nat))
    (chunkCount : Nat) (data : List Nat)
    (hlen : s.length = chunkCount)
    (h5 : multipartChunksPerPart ≤ chunkCount)
    (hnc : ∀ i, env.cancelledBefore i = false)
    (het : ∀ i, env.etagOf i ≠ "") :
    (∃ r, uploadToBucket env (.stream s chunkCount) = .multipart r ∧
      r.outcome = .ok ("objectKey", s.flatten.length) ∧
      r.putParts
        = (List.range ((chunkCount + multipartChunksPerPart - 1) / multipartChunksPerPart)).map
          (fun j => (j + 1,
            ((s.drop (multipartChunksPerPart * j)).take multipartChunksPerPart).flatten)) ∧
      r.putParts.map Prod.fst
        = (List.range ((chunkCount + multipartChunksPerPart - 1) / multipartChunksPerPart)).map
            (fun j => j + 1) ∧
      r.completion
        = some ((List.range ((chunkCount + multipartChunksPerPart - 1) / multipartChunksPerPart)).map
            (fun j => (j + 1, env.etagOf (j + 1)))) ∧
      (∀ j, j + 1 < (chunkCount + multipartChunksPerPart - 1) / multipartChunksPerPart →
        ((s.drop (multipartChunksPerPart * j)).take multipartChunksPerPart).length
          = multipartChunksPerPart) ∧
      ((s.drop (multipartChunksPerPart
            * ((chunkCount + multipartChunksPerPart - 1) / multipartChunksPerPart - 1))).take
          multipartChunksPerPart).length
        = chunkCount - multipartChunksPerPart
            * ((chunkCount + multipartChunksPerPart - 1) / multipartChunksPerPart - 1)) ∧
    (∀ (s2 : List (List Nat)) (cc2 : Nat), cc2 < multipartChunksPerPart →
      uploadToBucket env (.stream s2 cc2) = .singlePut s2.flatten) ∧
    uploadToBucket env (.bytes data) = .singlePut data := by
  have hM : multipartChunksPerPart = 5 := rfl
  have h5x : 5 ≤ chunkCount := hM ▸ h5
  have hceil1 : chunkCount ≤ multipartChunksPerPart
      * ((chunkCount + multipartChunksPerPart - 1) / multipartChunksPerPart) := by
    rw [hM]
    omega
  have hceil2 : multipartChunksPerPart
      * ((chunkCount + multipartChunksPerPart - 1) / multipartChunksPerPart - 1) < chunkCount := by
    rw [hM]
    omega
  have hrun := runMultipartParts_ok env hnc het
    ((chunkCount + multipartChunksPerPart - 1) / multipartChunksPerPart) 0
    ⟨[], [], 0, s, none⟩ rfl
  dsimp only at hrun
  simp only [List.nil_append, Nat.zero_add] at hrun
  have hdrop : s.drop (multipartChunksPerPart
      * ((chunkCount + multipartChunksPerPart - 1) / multipartChunksPerPart)) = [] :=
    List.drop_eq_nil_of_le (by rw [hlen]; exact hceil1)
  have htake : s.take (multipartChunksPerPart
      * ((chunkCount + multipartChunksPerPart - 1) / multipartChunksPerPart)) = s :=
    List.take_of_length_le (by rw [hlen]; exact hceil1)
  have hup : uploadStreamUsingMultipart env s chunkCount =
      { putParts := (List.range
            ((chunkCount + multipartChunksPerPart - 1) / multipartChunksPerPart)).map
          (fun j => (j + 1,
            ((s.drop (multipartChunksPerPart * j)).take multipartChunksPerPart).flatten))
        completion := some ((List.range
            ((chunkCount + multipartChunksPerPart - 1) / multipartChunksPerPart)).map
          (fun j => (j + 1, env.etagOf (j + 1))))
        outcome := .ok ("objectKey", s.flatten.length) } := by
    rw [uploadStreamUsingMultipart]
    rw [hrun]
    dsimp only
    rw [hdrop, htake]
    simp
  refine ⟨⟨uploadStreamUsingMultipart env s chunkCount, ?_, ?_, ?_, ?_, ?_, ?_, ?_⟩, ?_, ?_⟩
  · rw [uploadToBucket]
    rw [if_pos h5]
  · rw [hup]
  · rw [hup]
  · rw [hup]
    dsimp only
    rw [List.map_map]
    rfl
  · rw [hup]
  · intro j hj
    rw [hM] at hj ⊢
    rw [List.length_take, List.length_drop, hlen]
    omega
  · rw [hM]
    rw [List.length_take, List.length_drop, hlen]
    omega
  · intro s2 cc2 hlt
    rw [uploadToBucket]
    rw [if_neg (by omega)]
  · rfl
/-- Witness for C4: a stream of exactly 12 chunks with the 5-chunk
threshold produces 3 parts of 5, 5, and 2 chunks, uploaded as part
numbers 1, 2, 3, and the completion call lists exactly those 3 pairs in
ascending order. -/
theorem uploadToBucket_multipart_spec_witness :
    (([[1], [2], [3], [4], [5], [6], [7], [8], [9], [10], [11], [12]]
        : List (List Nat)).length = 12 ∧
      multipartChunksPerPart ≤ 12) ∧
    (∃ r, uploadToBucket ⟨fun _ => false, fun _ => "t"⟩
        (.stream [[1], [2], [3], [4], [5], [6], [7], [8], [9], [10], [11], [12]] 12)
        = .multipart r ∧
      r.putParts = [(1, [1, 2, 3, 4, 5]), (2, [6, 7, 8, 9, 10]), (3, [11, 12])] ∧
      r.completion = some [(1, "t"), (2, "t"), (3, "t")] ∧
      r.outcome = .ok ("objectKey", 12)) := by
  refine ⟨⟨by rfl, by decide⟩, ?_⟩
  obtain ⟨r, hA, hB, hC, hD, hE, hF, hG⟩ := (uploadToBucket_multipart_spec
    ⟨fun _ => false, fun _ => "t"⟩
    [[1], [2], [3], [4], [5], [6], [7], [8], [9], [10], [11], [12]] 12 []
    (by rfl) (by decide) (fun _ => rfl) (fun _ => (by decide : ("t" : String) ≠ ""))).1
  refine ⟨r, hA, ?_, ?_, ?_⟩
  · rw [hC]
    rfl
  · rw [hE]
    rfl
  · rw [hB]
    rfl

/-- The part loop, when the cancellation flag is first raised at the
boundary check before part index `k`, uploads exactly the parts before
`k` and stops with the distinguished cancellation error. -/
theorem runMultipartParts_cancelled (env : MultipartEnv) (k : Nat)
    (hnc : ∀ j, j < k → env.cancelledBefore j = false)
    (hkc : env.cancelledBefore k = true)
    (het : ∀ i, env.etagOf i ≠ "") :
    ∀ (n idx : Nat) (st : MultipartState), st.err = none →
      idx ≤ k → k < idx + n →
      runMultipartParts env n idx st =
        { putParts := st.putParts ++ (List.range (k - idx)).map
            (fun j => (idx + j + 1,
              ((st.rest.drop (multipartChunksPerPart * j)).take multipartChunksPerPart).flatten))
          completedParts := st.completedParts ++ (List.range (k - idx)).map
            (fun j => (idx + j + 1, env.etagOf (idx + j + 1)))
          fileSize := st.fileSize
            + ((st.rest.take (multipartChunksPerPart * (k - idx))).flatten).length
          rest := st.rest.drop (multipartChunksPerPart * (k - idx))
          err := some .uploadCancelled } := by
  intro n
  induction n with
  | zero => intro idx st h hle hlt; omega
  | succ n ih =>
    intro idx st h hle hlt
    show runMultipartParts env (n + 1) idx st = _
    rw [runMultipartParts]
    by_cases hik : idx = k
    · rw [hik, hkc]
      simp only [if_true]
      cases st with
      | mk pp cp fsz rest err =>
        simp only at h
        subst h
        show MultipartState.mk pp cp fsz rest (some .uploadCancelled) = _
        simp
    · rw [hnc idx (by omega)]
      simp only [Bool.false_eq_true, if_false]
      rw [if_neg (het (idx + 1))]
      rw [ih (idx + 1) _ rfl (by omega) (by omega)]
      rw [nextMultipartUploadPart_eq]
      dsimp only
      have hk1 : k - idx = (k - (idx + 1)) + 1 := by omega
      congr 1
      · rw [List.append_assoc]
        congr 1
        rw [hk1, List.range_succ_eq_map, List.map_cons, List.map_map, List.singleton_append]
        congr 1
        apply List.map_congr_left
        intro j _
        simp only [Function.comp_apply, Nat.succ_eq_add_one]
        rw [List.drop_drop]
        have h1 : idx + 1 + j + 1 = idx + (j + 1) + 1 := by omega
        have h2 : multipartChunksPerPart + multipartChunksPerPart * j
            = multipartChunksPerPart * (j + 1) := by ring
        rw [h1, h2]
      · rw [List.append_assoc]
        congr 1
        rw [hk1, List.range_succ_eq_map, List.map_cons, List.map_map, List.singleton_append]
        congr 1
        apply List.map_congr_left
        intro j _
        simp only [Function.comp_apply, Nat.succ_eq_add_one]
        have h1 : idx + 1 + j + 1 = idx + (j + 1) + 1 := by omega
        rw [h1]
      · show st.fileSize + ((st.rest.take multipartChunksPerPart).flatten).length
            + (((st.rest.drop multipartChunksPerPart).take
                (multipartChunksPerPart * (k - (idx + 1)))).flatten).length
          = st.fileSize + ((st.rest.take (multipartChunksPerPart * (k - idx))).flatten).length
        have hsplit : st.rest.take (multipartChunksPerPart * (k - idx))
            = st.rest.take multipartChunksPerPart
              ++ (st.rest.drop multipartChunksPerPart).take
                  (multipartChunksPerPart * (k - (idx + 1))) := by
          rw [show multipartChunksPerPart * (k - idx)
              = multipartChunksPerPart + multipartChunksPerPart * (k - (idx + 1)) from by
            rw [hk1]; ring]
          exact List.take_add _ _ _
        rw [hsplit, List.flatten_append, List.length_append]
        omega
      · rw [List.drop_drop]
        congr 1
        rw [hk1]
        ring
/-- Modelled from the spec: the per-asset terminal upload results of the
failure taxonomy (the subset reachable from the multipart error
model). -/
inductive UploadResultModel
  | uploaded
  | cancelled
  | blocked
  | failed
deriving DecidableEq, Repr

/-- Modelled from the spec: the surfacing of terminal errors as
per-asset results -- "Failure taxonomy surfaced to the caller per asset:
... blocked (missing integrity tag from backend), ... cancelled, or
generic failed".  The code performing this mapping (`handleUploadError`
of `ente-shared/error` and the upload manager) is not under src/. -/
def uploadResultForError : UploadErrModel → UploadResultModel
  | .uploadCancelled => .cancelled
  | .eTagMissing => .blocked
  | .moreChunks => .failed

/-- Modelled from the spec: `retryAsyncOperation` of `ente-base/http`
(not under src/): run the operation; on failure hand the error to the
`abortIfNeeded` hook first, which may re-throw to bypass the retries;
otherwise retry while attempts remain.  Attempt outcomes are indexed by
the attempt number; the result also reports how many attempts ran. -/
def retryAsyncOperation {α : Type} (attempt : Nat → Except UploadErrModel α)
    (abortNow : UploadErrModel → Bool) :
    Nat → Nat → Except UploadErrModel α × Nat
  | 0, idx => (attempt idx, idx + 1)
  | n + 1, idx =>
    match attempt idx with
    | .ok a => (.ok a, idx + 1)
    | .error e =>
      if abortNow e then (.error e, idx + 1)
      else retryAsyncOperation attempt abortNow n (idx + 1)

/-- `createAbortableRetryEnsuringHTTPOk` from `upload-service.ts`: each
attempt first polls the cancellation flag (throwing the distinguished
`UPLOAD_CANCELLED` signal before the request), then performs the request
(with `ensureOk` folding non-2xx responses into failures; the per-attempt
request outcomes are an input); the installed `abortIfNeeded` hook
re-throws exactly the cancellation signal, bypassing the retries. -/
def createAbortableRetryEnsuringHTTPOk {α : Type} (cancelledAt : Nat → Bool)
    (request : Nat → Except UploadErrModel α) (retries : Nat) :
    Except UploadErrModel α × Nat :=
  retryAsyncOperation
    (fun idx => if cancelledAt idx then .error .uploadCancelled else request idx)
    (fun e => decide (e = .uploadCancelled)) retries 0

/-- If every attempt before `k` fails with a non-aborting error and
attempt `k` fails with an aborting one, the retrier stops right there
and propagates that error without further attempts. -/
theorem retryAsyncOperation_abort {α : Type} (attempt : Nat → Except UploadErrModel α)
    (abortNow : UploadErrModel → Bool) (eab : UploadErrModel)
    (hab : abortNow eab = true) :
    ∀ (k retries idx : Nat), k ≤ retries →
      (∀ j, j < k → ∃ e, attempt (idx + j) = .error e ∧ abortNow e = false) →
      attempt (idx + k) = .error eab →
      retryAsyncOperation attempt abortNow retries idx = (.error eab, idx + k + 1) := by
  intro k
  induction k with
  | zero =>
    intro retries idx _ _ hk
    rw [Nat.add_zero] at hk
    rcases retries with _ | n
    · show (attempt idx, idx + 1) = _
      rw [hk]
    · show (match attempt idx with
        | Except.ok a => (Except.ok a, idx + 1)
        | Except.error e => if abortNow e then (Except.error e, idx + 1)
          else retryAsyncOperation attempt abortNow n (idx + 1)) = _
      rw [hk]
      simp [hab]
  | succ k ih =>
    intro retries idx hle herr hk
    rcases retries with _ | n
    · omega
    · obtain ⟨e0, he0, hab0⟩ := herr 0 (by omega)
      rw [Nat.add_zero] at he0
      show (match attempt idx with
        | Except.ok a => (Except.ok a, idx + 1)
        | Except.error e => if abortNow e then (Except.error e, idx + 1)
          else retryAsyncOperation attempt abortNow n (idx + 1)) = _
      rw [he0]
      simp only [hab0, Bool.false_eq_true, if_false]
      have hres := ih n (idx + 1) (by omega)
        (fun j hj => by
          obtain ⟨e, he, habe⟩ := herr (j + 1) (by omega)
          exact ⟨e, by rw [show idx + 1 + j = idx + (j + 1) from by omega]; exact he, habe⟩)
        (by rw [show idx + 1 + k = idx + (k + 1) from by omega]; exact hk)
      rw [hres]
      congr 1
      omega
/-- C9: if the cancellation flag is raised at the boundary check before
part index `k` (having been clear for all earlier parts), the check
throws the distinguished cancellation signal: exactly the earlier parts
were uploaded, no further parts are uploaded, the completion call is
never invoked, and the error maps to the `cancelled` per-asset result;
the retrier likewise re-throws the cancellation signal without counting
it as a retryable failure. -/
theorem multipart_cancellation_spec (env : MultipartEnv) (s : List (List Nat))
    (chunkCount k : Nat)
    (hk1 : 1 ≤ k)
    (hkn : k < (chunkCount + multipartChunksPerPart - 1) / multipartChunksPerPart)
    (hnc : ∀ j, j < k → env.cancelledBefore j = false)
    (hkc : env.cancelledBefore k = true)
    (het : ∀ i, env.etagOf i ≠ "") :
    ((uploadStreamUsingMultipart env s chunkCount).outcome = .error .uploadCancelled ∧
     (uploadStreamUsingMultipart env s chunkCount).completion = none ∧
     (uploadStreamUsingMultipart env s chunkCount).putParts.length = k ∧
     (uploadStreamUsingMultipart env s chunkCount).putParts.map Prod.fst
        = (List.range k).map (fun j => j + 1)) ∧
    uploadResultForError .uploadCancelled = .cancelled ∧
    (∀ (α : Type) (cancelledAt : Nat → Bool) (request : Nat → Except UploadErrModel α)
        (retries kr : Nat), kr ≤ retries →
      (∀ j, j < kr → cancelledAt j = false) →
      (∀ j, j < kr → ∃ e, request j = .error e ∧ e ≠ .uploadCancelled) →
      cancelledAt kr = true →
      createAbortableRetryEnsuringHTTPOk cancelledAt request retries
        = (.error .uploadCancelled, kr + 1)) := by
  have hrun := runMultipartParts_cancelled env k hnc hkc het
    ((chunkCount + multipartChunksPerPart - 1) / multipartChunksPerPart) 0
    ⟨[], [], 0, s, none⟩ rfl (by omega) (by omega)
  dsimp only at hrun
  simp only [List.nil_append, Nat.zero_add, Nat.sub_zero] at hrun
  have hup : uploadStreamUsingMultipart env s chunkCount =
      { putParts := (List.range k).map (fun j => (j + 1,
          ((s.drop (multipartChunksPerPart * j)).take multipartChunksPerPart).flatten))
        completion := none
        outcome := .error .uploadCancelled } := by
    rw [uploadStreamUsingMultipart]
    rw [hrun]
  refine ⟨⟨?_, ?_, ?_, ?_⟩, rfl, ?_⟩
  · rw [hup]
  · rw [hup]
  · rw [hup]
    simp
  · rw [hup]
    dsimp only
    rw [List.map_map]
    rfl
  · intro α cancelledAt request retries kr hle hflag herr hkcat
    rw [createAbortableRetryEnsuringHTTPOk]
    have habort := retryAsyncOperation_abort
      (fun idx => if cancelledAt idx then .error .uploadCancelled else request idx)
      (fun e => decide (e = .uploadCancelled)) .uploadCancelled (by simp)
      kr retries 0 hle
      (fun j hj => by
        obtain ⟨e, he, hne⟩ := herr j hj
        refine ⟨e, ?_, ?_⟩
        · show (if cancelledAt (0 + j) then _ else request (0 + j)) = _
          rw [Nat.zero_add, hflag j hj]
          simp only [Bool.false_eq_true, if_false]
          exact he
        · exact decide_eq_false hne)
      (by
        show (if cancelledAt (0 + kr) then _ else request (0 + kr)) = _
        rw [Nat.zero_add, hkcat]
        simp)
    rw [habort]
    congr 1
    omega

/-- Witness for C9: a 12-chunk stream whose cancellation flag goes up
right after the first part: one part uploaded, no completion call,
result `cancelled`. -/
theorem multipart_cancellation_spec_witness :
    ((1 : Nat) ≤ 1 ∧ 1 < (12 + multipartChunksPerPart - 1) / multipartChunksPerPart) ∧
    ((uploadStreamUsingMultipart ⟨fun i => decide (1 ≤ i), fun _ => "t"⟩
        [[1], [2], [3], [4], [5], [6], [7], [8], [9], [10], [11], [12]] 12).outcome
        = .error .uploadCancelled ∧
     (uploadStreamUsingMultipart ⟨fun i => decide (1 ≤ i), fun _ => "t"⟩
        [[1], [2], [3], [4], [5], [6], [7], [8], [9], [10], [11], [12]] 12).completion
        = none ∧
     (uploadStreamUsingMultipart ⟨fun i => decide (1 ≤ i), fun _ => "t"⟩
        [[1], [2], [3], [4], [5], [6], [7], [8], [9], [10], [11], [12]] 12).putParts.length
        = 1) ∧
    uploadResultForError .uploadCancelled = .cancelled := by
  have h := multipart_cancellation_spec ⟨fun i => decide (1 ≤ i), fun _ => "t"⟩
    [[1], [2], [3], [4], [5], [6], [7], [8], [9], [10], [11], [12]] 12 1
    le_rfl (by decide)
    (fun j hj => by
      have hj0 : j = 0 := by omega
      subst hj0
      rfl)
    (by rfl) (fun _ => (by decide : ("t" : String) ≠ ""))
  exact ⟨⟨le_rfl, by decide⟩, ⟨h.1.1, h.1.2.1, h.1.2.2.1⟩, h.2.1⟩
/-! ## Live-photo pairing (`areLivePhotoAssets`)

`uploadItemSize` (filesystem), `matchJSONMetadata` (the sidecar map of
`metadata-json.ts`) and `tryExtractImageMetadata` /
`tryExtractVideoMetadata` (Exif/ffmpeg workers) are external
collaborators: their results for each candidate are recorded as fields
of the asset.
-/

/-- `PotentialLivePhotoAsset` of `upload-service.ts`, with the results
of its external collaborators recorded as fields: `size` is what
`uploadItemSize` reports for the upload item, `parsedMetadataJSON` what
`matchJSONMetadata` finds for it in the sidecar map, and
`extractedMetadata` what the Exif/ffmpeg extractor returns for it. -/
structure PotentialLivePhotoAsset where
  fileName : String
  fileType : FileType
  collectionID : Int
  pathPrefix : Option String
  size : Nat
  parsedMetadataJSON : Option ParsedMetadataJSONM := none
  extractedMetadata : Option ParsedMetadataM := none
deriving DecidableEq, Repr

/-- Modelled from the spec: the file-name splitter `nameAndExtension`
of `ente-base/file-name` (not under `src/`). The spec's pairing
algorithm compares "the remaining stems" after suffix stripping, with
"the other asset's extension" available as a strippable suffix: the
stem is the name up to the last dot and the extension what follows it;
a name with no dot has no extension. -/
def nameAndExtension (fileName : String) : String × Option String :=
  let r := fileName.data.reverse
  if '.' ∈ r then
    (String.mk (((r.dropWhile (fun c => c ≠ '.')).drop 1).reverse),
     some (String.mk ((r.takeWhile (fun c => c ≠ '.')).reverse)))
  else (fileName, none)

/-- `endsWith` over the code points (the suffixes involved are ASCII,
where JavaScript UTF-16 lengths and code-point lengths agree). -/
def strEndsWith (s t : String) : Bool :=
  List.isSuffixOf t.data s.data

/-- `toLowerCase` over the code points. -/
def strToLower (s : String) : String :=
  String.mk (s.data.map Char.toLower)

/-- `name.slice(0, -n)`: drop the last `n` code points. -/
def strDropRight (s : String) (n : Nat) : String :=
  String.mk (s.data.take (s.data.length - n))

/-- `removePotentialLivePhotoSuffix` from `upload-service.ts`: strip a
trailing literal `_3`, a case-insensitive `_HVEC`, or (when supplied
and truthy) the other asset's dotted extension, case-insensitively. -/
def removePotentialLivePhotoSuffix (name : String) (suffixArg : Option String) : String :=
  let suffix_3 := "_3"
  let suffix_hvec := "_HVEC"
  let foundSuffix : Option String :=
    if strEndsWith name suffix_3 then some suffix_3
    else if strEndsWith name suffix_hvec || strEndsWith name (strToLower suffix_hvec) then
      some suffix_hvec
    else if optStrTruthy suffixArg then
      if strEndsWith name (suffixArg.getD "")
          || strEndsWith name (strToLower (suffixArg.getD "")) then
        suffixArg
      else none
    else none
  match foundSuffix with
  | some t => strDropRight name t.data.length
  | none => name

/-- The 20 MiB per-asset size cap of `areLivePhotoAssets`. -/
def maxAssetSize : Nat := 20 * 1024 * 1024

/-- The `gExt` to dotted-suffix step of `areLivePhotoAssets`: a dot
prepended to the extension when the extension is truthy, else absent. -/
def dotExt (ext : Option String) : Option String :=
  if optStrTruthy ext then some ("." ++ ext.getD "") else none

/-- `uploadItemCreationDate` from `upload-service.ts`: the truthy
sidecar-JSON creation time when available, otherwise the extracted
metadata's creation-date timestamp (possibly absent); throws for a file
type other than image or video. -/
def uploadItemCreationDate (fileType : FileType)
    (parsedMetadataJSON : Option ParsedMetadataJSONM)
    (extractedMetadata : Option ParsedMetadataM) : Except String (Option Int) :=
  if optIntTruthy (parsedMetadataJSON.bind (fun m => m.creationTime)) then
    Except.ok (parsedMetadataJSON.bind (fun m => m.creationTime))
  else
    match fileType with
    | FileType.image =>
      Except.ok ((extractedMetadata.bind (fun m => m.creationDate)).map (fun d => d.timestamp))
    | FileType.video =>
      Except.ok ((extractedMetadata.bind (fun m => m.creationDate)).map (fun d => d.timestamp))
    | _ => Except.error "Unexpected file type"

/-- The one-image-one-video branch of `areLivePhotoAssets`: the two
pruned names when the pair has one image and one video (the image side
may additionally shed the video side's dotted extension), `none`
otherwise. -/
def livePhotoPrunedNames (f g : PotentialLivePhotoAsset) : Option (String × String) :=
  let fne := nameAndExtension f.fileName
  let gne := nameAndExtension g.fileName
  if f.fileType = FileType.image ∧ g.fileType = FileType.video then
    some (removePotentialLivePhotoSuffix fne.1 (dotExt gne.2),
          removePotentialLivePhotoSuffix gne.1 none)
  else if f.fileType = FileType.video ∧ g.fileType = FileType.image then
    some (removePotentialLivePhotoSuffix fne.1 none,
          removePotentialLivePhotoSuffix gne.1 (dotExt fne.2))
  else none

/-- `areLivePhotoAssets` from `upload-service.ts` (lines 354-462):
collection and path-prefix equality, one image + one video, pruned-name
equality, the 20 MiB size cap, and the creation-date heuristic whose
failure disqualifies the pair only when sidecar-JSON presence is
symmetric. The date threshold (absolute difference over 1e6 below
86400) is stated over the integer microsecond difference. -/
def areLivePhotoAssets (f g : PotentialLivePhotoAsset) : Except String Bool :=
  if f.collectionID ≠ g.collectionID then Except.ok false
  else if f.pathPrefix ≠ g.pathPrefix then Except.ok false
  else
    match livePhotoPrunedNames f g with
    | none => Except.ok false
    | some (fPrunedName, gPrunedName) =>
      if fPrunedName ≠ gPrunedName then Except.ok false
      else if f.size > maxAssetSize ∨ g.size > maxAssetSize then Except.ok false
      else do
        let fDate ← uploadItemCreationDate f.fileType f.parsedMetadataJSON f.extractedMetadata
        let gDate ← uploadItemCreationDate g.fileType g.parsedMetadataJSON g.extractedMetadata
        let haveSameishDate : Bool :=
          optIntTruthy fDate && optIntTruthy gDate
            && decide ((fDate.getD 0 - gDate.getD 0).natAbs < 24 * 60 * 60 * 1000000)
        if haveSameishDate = false then
          if ((!f.parsedMetadataJSON.isSome && !g.parsedMetadataJSON.isSome)
              || (f.parsedMetadataJSON.isSome && g.parsedMetadataJSON.isSome)) = true then
            Except.ok false
          else Except.ok true
        else Except.ok true

/-- C8 counterexample: an image with a sidecar JSON carrying a creation
time paired with a video that has no sidecar JSON and no extractable
date. A creation timestamp is available for exactly one of the two
candidates, every earlier check passes, yet the pair is accepted: the
failed date check is discarded because sidecar-JSON presence is
asymmetric (the Google Takeout workaround of lines 446-458). -/
theorem areLivePhotoAssets_asymmetric_sidecar_counterexample :
    uploadItemCreationDate FileType.image (some ⟨some 1000000, none, none, none⟩) none
      = Except.ok (some 1000000) ∧
    uploadItemCreationDate FileType.video none none = Except.ok none ∧
    areLivePhotoAssets
        ⟨"IMG_1.jpg", FileType.image, 1, none, 100, some ⟨some 1000000, none, none, none⟩, none⟩
        ⟨"IMG_1.mp4", FileType.video, 1, none, 100, none, none⟩
      = Except.ok true :=
  ⟨rfl, rfl, rfl⟩

/-- C8 (amended): for a pair passing the collection, path-prefix,
one-image-one-video, pruned-name and size-cap checks, with a truthy
creation timestamp available for exactly one of the two candidates, the
date check fails and the outcome is decided by sidecar-JSON presence
alone: the pair is disqualified exactly when both or neither candidate
has a sidecar JSON, and is accepted when exactly one does. -/
theorem areLivePhotoAssets_single_timestamp (f g : PotentialLivePhotoAsset)
    (n : String) (fd gd : Option Int)
    (hcol : f.collectionID = g.collectionID)
    (hpath : f.pathPrefix = g.pathPrefix)
    (hpn : livePhotoPrunedNames f g = some (n, n))
    (hfs : f.size ≤ maxAssetSize) (hgs : g.size ≤ maxAssetSize)
    (hfd : uploadItemCreationDate f.fileType f.parsedMetadataJSON f.extractedMetadata
      = Except.ok fd)
    (hgd : uploadItemCreationDate g.fileType g.parsedMetadataJSON g.extractedMetadata
      = Except.ok gd)
    (hone : optIntTruthy fd ≠ optIntTruthy gd) :
    areLivePhotoAssets f g
      = Except.ok (!(f.parsedMetadataJSON.isSome == g.parsedMetadataJSON.isSome)) := by
  rw [areLivePhotoAssets]
  rw [if_neg (by simp [hcol]), if_neg (by simp [hpath]), hpn]
  dsimp only
  rw [if_neg (fun h => h rfl)]
  rw [if_neg (by omega)]
  rw [hfd, hgd]
  simp only [Bind.bind, Except.bind]
  have hsd : (optIntTruthy fd && optIntTruthy gd
      && decide ((fd.getD 0 - gd.getD 0).natAbs < 24 * 60 * 60 * 1000000)) = false := by
    cases h1 : optIntTruthy fd <;> cases h2 : optIntTruthy gd <;> simp_all
  simp only [hsd]
  rw [if_pos trivial]
  rcases hfp : f.parsedMetadataJSON with _ | v1 <;>
    rcases hgp : g.parsedMetadataJSON with _ | v2 <;>
    simp [hfp, hgp]

/-- Witness for C8's amended statement: the counterexample's image
paired with a video whose sidecar JSON is present but carries no truthy
creation time (symmetric JSON presence, one truthy timestamp): the pair
is disqualified. -/
theorem areLivePhotoAssets_single_timestamp_witness :
    (uploadItemCreationDate FileType.image (some ⟨some 1000000, none, none, none⟩) none
        = Except.ok (some 1000000) ∧
     uploadItemCreationDate FileType.video (some ⟨none, none, none, none⟩) none
        = Except.ok none ∧
     optIntTruthy (some 1000000) ≠ optIntTruthy none) ∧
    areLivePhotoAssets
        ⟨"IMG_1.jpg", FileType.image, 1, none, 100, some ⟨some 1000000, none, none, none⟩, none⟩
        ⟨"IMG_1.mp4", FileType.video, 1, none, 100, some ⟨none, none, none, none⟩, none⟩
      = Except.ok false := by
  refine ⟨⟨rfl, rfl, by decide⟩, ?_⟩
  exact areLivePhotoAssets_single_timestamp
    ⟨"IMG_1.jpg", FileType.image, 1, none, 100, some ⟨some 1000000, none, none, none⟩, none⟩
    ⟨"IMG_1.mp4", FileType.video, 1, none, 100, some ⟨none, none, none, none⟩, none⟩
    "IMG_1" (some 1000000) none rfl rfl rfl (by decide) (by decide) rfl rfl (by decide)
end Ente
